import Mathlib

/-!
Verification development for the sortition / signer-coordination pipeline of a
proof-of-burn layer-2 blockchain.  The Rust sources are shallowly embedded:
machine integers become `Nat` with explicit `% 2^w` where overflow can occur,
byte buffers become `List Nat`, fallible paths (panics, parse errors) become
`Option`/`Except`, and opaque cryptographic primitives (hash functions, ECDSA
recovery, address hashing) are passed as explicit function parameters so the
theorems quantify over them.
-/

set_option maxRecDepth 8000

namespace StacksSpec

/-! ## Byte-level helpers (big-endian integer encodings) -/

/-- Big-endian byte encoding of `n` into exactly `w` bytes (`u64::to_be_bytes`
and friends). -/
def natToBEBytes : Nat → Nat → List Nat
  | 0, _ => []
  | w + 1, n => natToBEBytes w (n / 256) ++ [n % 256]

/-- Big-endian decoding of a byte list (`u64::from_be_bytes` and friends). -/
def beBytesToNat (l : List Nat) : Nat :=
  l.foldl (fun acc b => acc * 256 + b) 0

/-! ## Burn-weighted sortition distribution (`chainstate/burn/distribution.rs`)

Here `Uint256` values are `Nat` below `2^256`, `Uint512` values are `Nat`
below `2^512`, `u128` values are `Nat` below `2^128`.  Panics (the source's
`assert!`s, `panic!`s and `unwrap`s, plus `Uint512` division by zero and its
overflow-trapping multiplication) are modelled as `none`. -/

def U64MAX : Nat := 2 ^ 64 - 1
def U128MOD : Nat := 2 ^ 128
def U256MOD : Nat := 2 ^ 256
def U256MAXV : Nat := 2 ^ 256 - 1
def U512MOD : Nat := 2 ^ 512

/-- The fields of `LeaderKeyRegisterOp` that the distribution reads.  The VRF
public key is represented by its hex encoding (a `Nat`): the source only ever
compares keys through the injective `ECVRF_public_key_to_hex`. -/
structure LeaderKeyRegisterOp where
  public_key : Nat
  block_number : Nat
  vtxindex : Nat
  deriving Repr, DecidableEq

/-- The fields of `LeaderBlockCommitOp` that the distribution reads.  The
committed block header hash is a byte list. -/
structure LeaderBlockCommitOp where
  block_header_hash : List Nat
  key_block_backptr : Nat
  key_vtxindex : Nat
  burn_fee : Nat
  block_number : Nat
  vtxindex : Nat
  deriving Repr, DecidableEq

/-- The fields of `UserBurnSupportOp` that the distribution reads. -/
structure UserBurnSupportOp where
  public_key : Nat
  block_header_hash_160 : List Nat
  burn_fee : Nat
  block_number : Nat
  vtxindex : Nat
  deriving Repr, DecidableEq

/-- A sortition sample point (`BurnSamplePoint`). -/
structure BurnSamplePoint where
  burns : Nat
  range_start : Nat
  range_end : Nat
  candidate : LeaderBlockCommitOp
  key : LeaderKeyRegisterOp
  user_burns : List UserBurnSupportOp
  deriving Repr, DecidableEq

/-- Modelled from the spec: `Hash160::from_sha256` applied to the committed
block header hash lives in `util::hash`, which is not under src/.  The spec
(§3) describes a user burn as carrying "the first 20 bytes of the committed
block header hash it supports"; only its role as a tag matters to the
matching logic below. -/
def hash160_of_header (h : List Nat) : List Nat := h.take 20

/-- The `(VRF public key hex, block hash 160)` pair indexing a burn sample in
`apply_user_burns`. -/
def pairOfSample (s : BurnSamplePoint) : Nat × List Nat :=
  (s.key.public_key, hash160_of_header s.candidate.block_header_hash)

/-- The `(VRF public key hex, block hash 160)` pair carried by a user burn. -/
def pairOfUserBurn (u : UserBurnSupportOp) : Nat × List Nat :=
  (u.public_key, u.block_header_hash_160)

/-- The u64 subtraction `bc.block_number - bc.key_block_backptr` (wrapping, as
compiled for release). -/
def keyTargetBlock (bc : LeaderBlockCommitOp) : Nat :=
  (bc.block_number + 2 ^ 64 - bc.key_block_backptr % 2 ^ 64) % 2 ^ 64

/-- Key lookup `key_index.get(&(bc.block_number - backptr, bc.key_vtxindex))`:
under the source's no-duplicate assertion the BTreeMap lookup returns the
unique (hence first) key registered at that location. -/
def findKey (keys : List LeaderKeyRegisterOp) (bc : LeaderBlockCommitOp) :
    Option LeaderKeyRegisterOp :=
  keys.find? fun k => k.block_number == keyTargetBlock bc && k.vtxindex == bc.key_vtxindex

/-- The burn-sample initialisation loop of `make_distribution`: each commit is
paired with its leader key (a missing key is a panic, hence `none`), with
`burns` set to the commit's burn fee, zero ranges and no user burns. -/
def initialSamples : List LeaderBlockCommitOp → List LeaderKeyRegisterOp →
    Option (List BurnSamplePoint)
  | [], _ => some []
  | bc :: rest, keys =>
    match findKey keys bc with
    | none => none
    | some k =>
      match initialSamples rest keys with
      | none => none
      | some samples =>
        some ({ burns := bc.burn_fee
                range_start := 0
                range_end := 0
                candidate := bc
                key := k
                user_burns := [] } :: samples)

/-- One user burn applied to the first sample whose pair matches (the BTreeMap
index of `apply_user_burns`; the asserted pair uniqueness makes the first
match the only one).  `burns` accumulates in `u128`. -/
def applyBurnStep : List BurnSamplePoint → UserBurnSupportOp → List BurnSamplePoint
  | [], _ => []
  | s :: rest, u =>
    if pairOfSample s = pairOfUserBurn u then
      { s with burns := (s.burns + u.burn_fee) % U128MOD,
               user_burns := s.user_burns ++ [u] } :: rest
    else
      s :: applyBurnStep rest u

/-- The body of `apply_user_burns`: the `assert!` that the samples' pairs are
distinct panics (`none`) on a duplicate; user burns matching no pair are
discarded by `applyBurnStep`. -/
def applyUserBurns (samples : List BurnSamplePoint) (user_burns : List UserBurnSupportOp) :
    Option (List BurnSamplePoint) :=
  if (samples.map pairOfSample).Nodup then
    some (user_burns.foldl applyBurnStep samples)
  else
    none

/-- The `u128` fold of `get_total_burns`. -/
def totalBurnsU128 (burn_dist : List BurnSamplePoint) : Nat :=
  burn_dist.foldl (fun acc s => (acc + s.burns) % U128MOD) 0

/-- The function `get_total_burns`: sum the `burns` fields in `u128`, failing
when the total meets or exceeds `0xffffffffffffffff = 2^64 - 1`. -/
def get_total_burns (burn_dist : List BurnSamplePoint) : Option Nat :=
  if U64MAX ≤ totalBurnsU128 burn_dist then none else some (totalBurnsU128 burn_dist)

/-- The range-assignment loop of `make_sortition_ranges`.  `acc` is the
`Uint512` running burn total (additions wrap at `2^512`), each range end is
`((Uint512::from(Uint256::MAX) * acc) / total).to_uint256()`; the
overflow-trapping `Uint512` multiplication panics (`none`) if the product
would exceed 512 bits, and `to_uint256` keeps the low 256 bits. -/
def sortRangesGo (total : Nat) :
    Nat → Nat → List BurnSamplePoint → Option (List BurnSamplePoint)
  | _, _, [] => some []
  | prevEnd, acc, s :: rest =>
    if U256MAXV * ((acc + s.burns) % U512MOD) < U512MOD then
      (sortRangesGo total ((U256MAXV * ((acc + s.burns) % U512MOD) / total) % U256MOD)
          ((acc + s.burns) % U512MOD) rest).map
        (fun out =>
          { s with range_start := prevEnd,
                   range_end := (U256MAXV * ((acc + s.burns) % U512MOD) / total) % U256MOD }
            :: out)
    else
      none

/-- The function `make_sortition_ranges`: an empty sample list is returned
unchanged; a single sample covers `[0, Uint256::MAX]`; otherwise the total is
taken through `get_total_burns` (whose `unwrap` panics, hence `none`) and a
zero total panics in the `Uint512` division (hence `none`). -/
def make_sortition_ranges : List BurnSamplePoint → Option (List BurnSamplePoint)
  | [] => some []
  | [s] => some [{ s with range_start := 0, range_end := U256MAXV }]
  | a :: b :: rest =>
    match get_total_burns (a :: b :: rest) with
    | none => none
    | some total =>
      if total = 0 then none
      else sortRangesGo total 0 0 (a :: b :: rest)

/-- The checks of `ops_sanity_checks`, given a non-empty candidate list headed
by `c0`. -/
def opsSanityChecks (c0 : LeaderBlockCommitOp) (commits : List LeaderBlockCommitOp)
    (keys : List LeaderKeyRegisterOp) (user_burns : List UserBurnSupportOp) : Bool :=
  commits.length == keys.length
    && commits.all (fun c => c.block_number == c0.block_number)
    && user_burns.all (fun u => u.block_number == c0.block_number)

/-- The function `BurnSamplePoint::make_distribution`. -/
def make_distribution (block_candidates : List LeaderBlockCommitOp)
    (consumed_leader_keys : List LeaderKeyRegisterOp)
    (user_burns : List UserBurnSupportOp) : Option (List BurnSamplePoint) :=
  match block_candidates with
  | [] => some []
  | c0 :: _ =>
    if opsSanityChecks c0 block_candidates consumed_leader_keys user_burns then
      if (consumed_leader_keys.map fun k => (k.block_number, k.vtxindex)).Nodup then
        match initialSamples block_candidates consumed_leader_keys with
        | none => none
        | some samples =>
          match applyUserBurns samples user_burns with
          | none => none
          | some samples' => make_sortition_ranges samples'
      else none
    else none

/-- The user burns of a list that match a sample's pair, in input order. -/
def matchedBurns (s : BurnSamplePoint) (user_burns : List UserBurnSupportOp) :
    List UserBurnSupportOp :=
  user_burns.filter fun u => decide (pairOfUserBurn u = pairOfSample s)

/-- Total burn fee of a list of user burns. -/
def sumFees (user_burns : List UserBurnSupportOp) : Nat :=
  (user_burns.map (fun u => u.burn_fee)).sum

/-! ## Spending conditions and transaction auth (`chainstate/stacks/auth.rs`)

Discriminant byte values (`TransactionPublicKeyEncoding as u8` and friends)
are declared in `chainstate/stacks/mod.rs`, which is not under src/; they are
modelled from the spec's wire format with their canonical distinct values.
Public keys are an opaque 33-byte point buffer (`StacksPublicKeyBuffer`) plus
a compression flag; curve-point validity is external to this embedding. -/

inductive TransactionPublicKeyEncoding where
  | Compressed
  | Uncompressed
  deriving Repr, DecidableEq

def TransactionPublicKeyEncoding.toU8 : TransactionPublicKeyEncoding → Nat
  | .Compressed => 0x00
  | .Uncompressed => 0x01

def TransactionPublicKeyEncoding.fromU8 (n : Nat) : Option TransactionPublicKeyEncoding :=
  if n = 0x00 then some .Compressed
  else if n = 0x01 then some .Uncompressed
  else none

inductive SinglesigHashMode where
  | P2PKH
  | P2WPKH
  deriving Repr, DecidableEq

def SinglesigHashMode.toU8 : SinglesigHashMode → Nat
  | .P2PKH => 0x00
  | .P2WPKH => 0x02

def SinglesigHashMode.fromU8 (n : Nat) : Option SinglesigHashMode :=
  if n = 0x00 then some .P2PKH
  else if n = 0x02 then some .P2WPKH
  else none

inductive MultisigHashMode where
  | P2SH
  | P2WSH
  deriving Repr, DecidableEq

def MultisigHashMode.toU8 : MultisigHashMode → Nat
  | .P2SH => 0x01
  | .P2WSH => 0x03

def MultisigHashMode.fromU8 (n : Nat) : Option MultisigHashMode :=
  if n = 0x01 then some .P2SH
  else if n = 0x03 then some .P2WSH
  else none

inductive TransactionAuthFlags where
  | AuthStandard
  | AuthSponsored
  deriving Repr, DecidableEq

def TransactionAuthFlags.toU8 : TransactionAuthFlags → Nat
  | .AuthStandard => 0x04
  | .AuthSponsored => 0x05

inductive TransactionAuthFieldID where
  | PublicKeyCompressed
  | PublicKeyUncompressed
  | SignatureCompressed
  | SignatureUncompressed
  deriving Repr, DecidableEq

def TransactionAuthFieldID.toU8 : TransactionAuthFieldID → Nat
  | .PublicKeyCompressed => 0x00
  | .PublicKeyUncompressed => 0x01
  | .SignatureCompressed => 0x02
  | .SignatureUncompressed => 0x03

/-- A public key: the 33-byte `StacksPublicKeyBuffer` point encoding plus the
compression flag tracked by `set_compressed`. -/
structure StacksPublicKey where
  key_data : List Nat
  compressed : Bool
  deriving Repr, DecidableEq

inductive TransactionAuthField where
  | PublicKey (pubkey : StacksPublicKey)
  | Signature (key_encoding : TransactionPublicKeyEncoding) (signature : List Nat)
  deriving Repr, DecidableEq

def TransactionAuthField.consensus_serialize : TransactionAuthField → List Nat
  | .PublicKey pubk =>
    (if pubk.compressed then TransactionAuthFieldID.PublicKeyCompressed
     else TransactionAuthFieldID.PublicKeyUncompressed).toU8 :: pubk.key_data
  | .Signature key_encoding sig =>
    (if key_encoding = TransactionPublicKeyEncoding.Compressed then
       TransactionAuthFieldID.SignatureCompressed
     else TransactionAuthFieldID.SignatureUncompressed).toU8 :: sig

/-- Reading primitives (`read_next` of `net::codec`, not under src/, modelled
from the spec's big-endian wire formats): a parser consumes a prefix of the
buffer and returns the remainder. -/
def readByte : List Nat → Option (Nat × List Nat)
  | [] => none
  | b :: r => some (b, r)

def readBytes (n : Nat) (buf : List Nat) : Option (List Nat × List Nat) :=
  if n ≤ buf.length then some (buf.take n, buf.drop n) else none

def readBENat (w : Nat) (buf : List Nat) : Option (Nat × List Nat) :=
  (readBytes w buf).map fun p => (beBytesToNat p.1, p.2)

def TransactionAuthField.consensus_deserialize (buf : List Nat) :
    Option (TransactionAuthField × List Nat) :=
  match readByte buf with
  | none => none
  | some (field_id, r) =>
    if field_id = TransactionAuthFieldID.PublicKeyCompressed.toU8 then
      (readBytes 33 r).map fun p => (.PublicKey ⟨p.1, true⟩, p.2)
    else if field_id = TransactionAuthFieldID.PublicKeyUncompressed.toU8 then
      (readBytes 33 r).map fun p => (.PublicKey ⟨p.1, false⟩, p.2)
    else if field_id = TransactionAuthFieldID.SignatureCompressed.toU8 then
      (readBytes 65 r).map fun p => (.Signature .Compressed p.1, p.2)
    else if field_id = TransactionAuthFieldID.SignatureUncompressed.toU8 then
      (readBytes 65 r).map fun p => (.Signature .Uncompressed p.1, p.2)
    else none

/-- Parse exactly `n` consecutive items (the element loop of `read_next` for
`Vec<T>`). -/
def parseItems {α : Type} (p : List Nat → Option (α × List Nat)) :
    Nat → List Nat → Option (List α × List Nat)
  | 0, buf => some ([], buf)
  | n + 1, buf =>
    match p buf with
    | none => none
    | some (x, r) =>
      match parseItems p n r with
      | none => none
      | some (xs, r') => some (x :: xs, r')

structure SinglesigSpendingCondition where
  hash_mode : SinglesigHashMode
  signer : Nat
  nonce : Nat
  fee_rate : Nat
  key_encoding : TransactionPublicKeyEncoding
  signature : List Nat
  deriving Repr, DecidableEq

structure MultisigSpendingCondition where
  hash_mode : MultisigHashMode
  signer : Nat
  nonce : Nat
  fee_rate : Nat
  fields : List TransactionAuthField
  signatures_required : Nat
  deriving Repr, DecidableEq

def SinglesigSpendingCondition.consensus_serialize (c : SinglesigSpendingCondition) :
    List Nat :=
  c.hash_mode.toU8 ::
    (natToBEBytes 20 c.signer ++ natToBEBytes 8 c.nonce ++ natToBEBytes 8 c.fee_rate
      ++ c.key_encoding.toU8 :: c.signature)

def SinglesigSpendingCondition.consensus_deserialize (buf : List Nat) :
    Option (SinglesigSpendingCondition × List Nat) := do
  let (hm, r) ← readByte buf
  let hash_mode ← SinglesigHashMode.fromU8 hm
  let (signer, r) ← readBENat 20 r
  let (nonce, r) ← readBENat 8 r
  let (fee_rate, r) ← readBENat 8 r
  let (ke, r) ← readByte r
  let key_encoding ← TransactionPublicKeyEncoding.fromU8 ke
  let (signature, r) ← readBytes 65 r
  if hash_mode = SinglesigHashMode.P2WPKH
      ∧ key_encoding ≠ TransactionPublicKeyEncoding.Compressed then
    none
  else
    some ({ hash_mode, signer, nonce, fee_rate, key_encoding, signature }, r)

def MultisigSpendingCondition.consensus_serialize (c : MultisigSpendingCondition) :
    List Nat :=
  c.hash_mode.toU8 ::
    (natToBEBytes 20 c.signer ++ natToBEBytes 8 c.nonce ++ natToBEBytes 8 c.fee_rate
      ++ natToBEBytes 4 c.fields.length
      ++ (c.fields.map TransactionAuthField.consensus_serialize).flatten
      ++ natToBEBytes 2 c.signatures_required)

/-- The signature count of the deserializer's field scan, with the `u16`
`checked_add` failing when the count would pass `u16::MAX`. -/
def countSigsCheckedGo : Nat → List TransactionAuthField → Option Nat
  | n, [] => some n
  | n, .Signature _ _ :: rest =>
    if n < 65535 then countSigsCheckedGo (n + 1) rest else none
  | n, .PublicKey _ :: rest => countSigsCheckedGo n rest

def countSigsChecked (fields : List TransactionAuthField) : Option Nat :=
  countSigsCheckedGo 0 fields

/-- Whether a field list contains an uncompressed public key or a signature
declared with uncompressed key encoding (the `have_uncompressed` flag of both
the deserializer and the verifier). -/
def hasUncompressedField (fields : List TransactionAuthField) : Bool :=
  fields.any fun f =>
    match f with
    | .Signature key_encoding _ =>
      decide (key_encoding = TransactionPublicKeyEncoding.Uncompressed)
    | .PublicKey pubk => !pubk.compressed

def MultisigSpendingCondition.consensus_deserialize (buf : List Nat) :
    Option (MultisigSpendingCondition × List Nat) := do
  let (hm, r) ← readByte buf
  let hash_mode ← MultisigHashMode.fromU8 hm
  let (signer, r) ← readBENat 20 r
  let (nonce, r) ← readBENat 8 r
  let (fee_rate, r) ← readBENat 8 r
  let (cnt, r) ← readBENat 4 r
  let (fields, r) ← parseItems TransactionAuthField.consensus_deserialize cnt r
  let (signatures_required, r) ← readBENat 2 r
  let num_sigs_given ← countSigsChecked fields
  if num_sigs_given ≠ signatures_required then
    none
  else if hasUncompressedField fields ∧ hash_mode = MultisigHashMode.P2WSH then
    none
  else
    some ({ hash_mode, signer, nonce, fee_rate, fields, signatures_required }, r)

inductive TransactionSpendingCondition where
  | Singlesig (data : SinglesigSpendingCondition)
  | Multisig (data : MultisigSpendingCondition)
  deriving Repr, DecidableEq

def TransactionSpendingCondition.consensus_serialize :
    TransactionSpendingCondition → List Nat
  | .Singlesig data => data.consensus_serialize
  | .Multisig data => data.consensus_serialize

/-- Spending-condition dispatch: the first byte (the hash mode) uniquely
identifies the variant. -/
def TransactionSpendingCondition.consensus_deserialize (buf : List Nat) :
    Option (TransactionSpendingCondition × List Nat) :=
  match buf with
  | [] => none
  | b :: _ =>
    if b = SinglesigHashMode.P2PKH.toU8 ∨ b = SinglesigHashMode.P2WPKH.toU8 then
      (SinglesigSpendingCondition.consensus_deserialize buf).map fun p => (.Singlesig p.1, p.2)
    else if b = MultisigHashMode.P2SH.toU8 ∨ b = MultisigHashMode.P2WSH.toU8 then
      (MultisigSpendingCondition.consensus_deserialize buf).map fun p => (.Multisig p.1, p.2)
    else none

inductive TransactionAuth where
  | Standard (origin : TransactionSpendingCondition)
  | Sponsored (origin : TransactionSpendingCondition) (sponsor : TransactionSpendingCondition)
  deriving Repr, DecidableEq

def TransactionAuth.consensus_serialize : TransactionAuth → List Nat
  | .Standard origin =>
    TransactionAuthFlags.AuthStandard.toU8 :: origin.consensus_serialize
  | .Sponsored origin sponsor =>
    TransactionAuthFlags.AuthSponsored.toU8
      :: (origin.consensus_serialize ++ sponsor.consensus_serialize)

def TransactionAuth.consensus_deserialize (buf : List Nat) :
    Option (TransactionAuth × List Nat) :=
  match readByte buf with
  | none => none
  | some (type_id, r) =>
    if type_id = TransactionAuthFlags.AuthStandard.toU8 then
      (TransactionSpendingCondition.consensus_deserialize r).map fun p => (.Standard p.1, p.2)
    else if type_id = TransactionAuthFlags.AuthSponsored.toU8 then
      match TransactionSpendingCondition.consensus_deserialize r with
      | none => none
      | some (origin, r') =>
        (TransactionSpendingCondition.consensus_deserialize r').map fun p =>
          (.Sponsored origin p.1, p.2)
    else none

/-! Well-formedness (the Rust type invariants: field widths) and the
data-model validity invariants of spec §3. -/

def wfAuthField : TransactionAuthField → Prop
  | .PublicKey pubk => pubk.key_data.length = 33
  | .Signature _ sig => sig.length = 65

def SinglesigSpendingCondition.wf (c : SinglesigSpendingCondition) : Prop :=
  c.signer < 256 ^ 20 ∧ c.nonce < 256 ^ 8 ∧ c.fee_rate < 256 ^ 8 ∧ c.signature.length = 65

def SinglesigSpendingCondition.valid (c : SinglesigSpendingCondition) : Prop :=
  c.hash_mode = SinglesigHashMode.P2WPKH →
    c.key_encoding = TransactionPublicKeyEncoding.Compressed

/-- Number of signature fields. -/
def countSigs (fields : List TransactionAuthField) : Nat :=
  (fields.filter fun f =>
    match f with
    | .Signature _ _ => true
    | .PublicKey _ => false).length

def MultisigSpendingCondition.wf (c : MultisigSpendingCondition) : Prop :=
  c.signer < 256 ^ 20 ∧ c.nonce < 256 ^ 8 ∧ c.fee_rate < 256 ^ 8
    ∧ c.fields.length < 256 ^ 4 ∧ c.signatures_required < 256 ^ 2
    ∧ ∀ f ∈ c.fields, wfAuthField f

def MultisigSpendingCondition.valid (c : MultisigSpendingCondition) : Prop :=
  countSigs c.fields = c.signatures_required
    ∧ (c.hash_mode = MultisigHashMode.P2WSH → hasUncompressedField c.fields = false)

def TransactionSpendingCondition.wf : TransactionSpendingCondition → Prop
  | .Singlesig data => data.wf
  | .Multisig data => data.wf

def TransactionSpendingCondition.valid : TransactionSpendingCondition → Prop
  | .Singlesig data => data.valid
  | .Multisig data => data.valid

def TransactionAuth.wf : TransactionAuth → Prop
  | .Standard origin => origin.wf
  | .Sponsored origin sponsor => origin.wf ∧ sponsor.wf

def TransactionAuth.valid : TransactionAuth → Prop
  | .Standard origin => origin.valid
  | .Sponsored origin sponsor => origin.valid ∧ sponsor.valid

/-! ### Sighash computation and verification.

The truncated 256-bit hash `Txid::from_sighash_bytes` and the ECDSA public-key
recovery `StacksPublicKey::recover_to_pubkey` are opaque cryptographic
primitives (`util`, not under src/); they are taken as function parameters
`H` and `recover`.  Sighashes are 32-byte lists; the source's length
`assert!`s are kept as guards. -/

def make_sighash_presign (H : List Nat → List Nat) (cur_sighash : List Nat)
    (cond_code : TransactionAuthFlags) (fee_rate nonce : Nat) : Option (List Nat) :=
  let new_tx_hash_bits :=
    cur_sighash ++ cond_code.toU8 :: (natToBEBytes 8 fee_rate ++ natToBEBytes 8 nonce)
  if new_tx_hash_bits.length = 32 + 1 + 8 + 8 then some (H new_tx_hash_bits) else none

def make_sighash_postsign (H : List Nat → List Nat) (cur_sighash : List Nat)
    (pubkey : StacksPublicKey) (sig : List Nat) : Option (List Nat) :=
  let pubkey_encoding :=
    if pubkey.compressed then TransactionPublicKeyEncoding.Compressed
    else TransactionPublicKeyEncoding.Uncompressed
  let new_tx_hash_bits := cur_sighash ++ pubkey_encoding.toU8 :: sig
  if new_tx_hash_bits.length = 32 + 1 + 65 then some (H new_tx_hash_bits) else none

/-- The function `TransactionSpendingCondition::next_verification`: recover
the public key over the presign sighash, force its compression flag from the
declared key encoding, and advance the rolling sighash. -/
def next_verification (H : List Nat → List Nat)
    (recover : List Nat → List Nat → Option StacksPublicKey)
    (cur_sighash : List Nat) (cond_code : TransactionAuthFlags)
    (fee_rate nonce : Nat) (key_encoding : TransactionPublicKeyEncoding)
    (sig : List Nat) : Option (StacksPublicKey × List Nat) := do
  let sighash_presign ← make_sighash_presign H cur_sighash cond_code fee_rate nonce
  let pubk0 ← recover sighash_presign sig
  let pubk : StacksPublicKey :=
    { pubk0 with compressed := key_encoding = TransactionPublicKeyEncoding.Compressed }
  let next_sighash ← make_sighash_postsign H sighash_presign pubk sig
  some (pubk, next_sighash)

inductive AddressHashMode where
  | SerializeP2PKH
  | SerializeP2SH
  | SerializeP2WPKH
  | SerializeP2WSH
  deriving Repr, DecidableEq

def SinglesigHashMode.to_address_hash_mode : SinglesigHashMode → AddressHashMode
  | .P2PKH => .SerializeP2PKH
  | .P2WPKH => .SerializeP2WPKH

def MultisigHashMode.to_address_hash_mode : MultisigHashMode → AddressHashMode
  | .P2SH => .SerializeP2SH
  | .P2WSH => .SerializeP2WSH

/-- Modelled from the spec: `StacksAddress::from_public_keys` (`address.rs`,
not under src/).  Per spec §4.2, any uncompressed key under a witness hash
mode (`P2WPKH`/`P2WSH`) makes address derivation fail; the address hash
itself is the opaque parameter `addrHash`. -/
def from_public_keys (addrHash : AddressHashMode → Nat → List StacksPublicKey → Nat)
    (hash_mode : AddressHashMode) (num_sigs : Nat) (pubkeys : List StacksPublicKey) :
    Option Nat :=
  if (hash_mode = AddressHashMode.SerializeP2WPKH ∨ hash_mode = AddressHashMode.SerializeP2WSH)
      ∧ pubkeys.any (fun pk => !pk.compressed) then
    none
  else
    some (addrHash hash_mode num_sigs pubkeys)

/-- The function `SinglesigSpendingCondition::verify` (all error paths
collapsed to `none`). -/
def SinglesigSpendingCondition.verify (H : List Nat → List Nat)
    (recover : List Nat → List Nat → Option StacksPublicKey)
    (addrHash : AddressHashMode → Nat → List StacksPublicKey → Nat)
    (c : SinglesigSpendingCondition) (initial_sighash : List Nat)
    (cond_code : TransactionAuthFlags) : Option (List Nat) := do
  let (pubkey, next_sighash) ←
    next_verification H recover initial_sighash cond_code c.fee_rate c.nonce
      c.key_encoding c.signature
  let addr_bytes ← from_public_keys addrHash c.hash_mode.to_address_hash_mode 1 [pubkey]
  if addr_bytes = c.signer then some next_sighash else none

/-- The field loop of `MultisigSpendingCondition::verify`: collect public
keys, advance the sighash at each signature, count signatures with the `u16`
`checked_add`. -/
def multisigVerifyGo (H : List Nat → List Nat)
    (recover : List Nat → List Nat → Option StacksPublicKey)
    (cond_code : TransactionAuthFlags) (fee_rate nonce : Nat) :
    List TransactionAuthField → List Nat → Nat → List StacksPublicKey →
    Option (List StacksPublicKey × List Nat × Nat)
  | [], cur_sighash, num_sigs, pubkeys => some (pubkeys, cur_sighash, num_sigs)
  | .PublicKey pubk :: rest, cur_sighash, num_sigs, pubkeys =>
    multisigVerifyGo H recover cond_code fee_rate nonce rest cur_sighash num_sigs
      (pubkeys ++ [pubk])
  | .Signature key_encoding sig :: rest, cur_sighash, num_sigs, pubkeys =>
    match next_verification H recover cur_sighash cond_code fee_rate nonce key_encoding sig with
    | none => none
    | some (pubk, next_sighash) =>
      if num_sigs < 65535 then
        multisigVerifyGo H recover cond_code fee_rate nonce rest next_sighash (num_sigs + 1)
          (pubkeys ++ [pubk])
      else none

/-- The function `MultisigSpendingCondition::verify` (all error paths
collapsed to `none`).  The `have_uncompressed` flag is accumulated in the
source's loop from the fields alone, so it equals `hasUncompressedField`. -/
def MultisigSpendingCondition.verify (H : List Nat → List Nat)
    (recover : List Nat → List Nat → Option StacksPublicKey)
    (addrHash : AddressHashMode → Nat → List StacksPublicKey → Nat)
    (c : MultisigSpendingCondition) (initial_sighash : List Nat)
    (cond_code : TransactionAuthFlags) : Option (List Nat) := do
  let (pubkeys, cur_sighash, num_sigs) ←
    multisigVerifyGo H recover cond_code c.fee_rate c.nonce c.fields initial_sighash 0 []
  if num_sigs ≠ c.signatures_required then
    none
  else if hasUncompressedField c.fields ∧ c.hash_mode = MultisigHashMode.P2WSH then
    none
  else do
    let addr_bytes ←
      from_public_keys addrHash c.hash_mode.to_address_hash_mode c.signatures_required pubkeys
    if addr_bytes = c.signer then some cur_sighash else none

/-! ## Peg-out request payload parsing
(`chainstate/burn/operations/peg_out_request.rs`) -/

inductive ParseError where
  | MalformedPayload
  | SliceConversion
  deriving Repr, DecidableEq

structure ParsedData where
  amount : Nat
  signature : List Nat
  deriving Repr, DecidableEq

/-- The function `PegOutRequestOp::parse_data`.  After the length check the
slice conversions `data[0..8].try_into()` and `data[8..73].try_into()` cannot
fail, so `SliceConversion` is unreachable here. -/
def PegOutRequestOp.parse_data (data : List Nat) : Except ParseError ParsedData :=
  if data.length < 73 then
    .error .MalformedPayload
  else
    .ok { amount := beBytesToNat (data.take 8), signature := (data.drop 8).take 65 }

/-! ## Signer state machine (`stacks-signer/src/signer.rs`)

Blocks are abstracted to their signer signature hash (the only field this
logic reads); wire payloads (`NonceRequest::message`) are abstracted to the
decoded value they carry. -/

structure NakamotoBlock where
  signer_signature_hash : Nat
  deriving Repr, DecidableEq

structure NakamotoBlockVote where
  signer_signature_hash : Nat
  rejected : Bool
  deriving Repr, DecidableEq

/-- The decoded content of a wire message buffer: `read_next::<NakamotoBlock>`
succeeds exactly on `blockMsg`, `read_next::<NakamotoBlockVote>` exactly on
`voteMsg`. -/
inductive SignerWireMessage where
  | blockMsg (block : NakamotoBlock)
  | voteMsg (vote : NakamotoBlockVote)
  | otherMsg
  deriving Repr, DecidableEq

structure NonceRequest where
  message : SignerWireMessage
  deriving Repr, DecidableEq

structure BlockInfo where
  block : NakamotoBlock
  vote : Option NakamotoBlockVote
  valid : Option Bool
  nonce_request : Option NonceRequest
  signed_over : Bool
  deriving Repr, DecidableEq

def BlockInfo.new (block : NakamotoBlock) : BlockInfo :=
  { block := block, vote := none, valid := none, nonce_request := none, signed_over := false }

def BlockInfo.new_with_request (block : NakamotoBlock) (nonce_request : NonceRequest) :
    BlockInfo :=
  { block := block, vote := none, valid := none, nonce_request := some nonce_request,
    signed_over := true }

/-- The signer DB `blocks` table: an association list keyed by signer
signature hash. -/
abbrev SignerDb := List (Nat × BlockInfo)

def block_lookup (db : SignerDb) (h : Nat) : Option BlockInfo :=
  (db.find? fun p => p.1 == h).map Prod.snd

/-- Upsert by the block's signer signature hash. -/
def insert_block (db : SignerDb) (block_info : BlockInfo) : SignerDb :=
  let h := block_info.block.signer_signature_hash
  (h, block_info) :: db.filter fun p => p.1 != h

/-- The function `determine_vote`: cache the vote on the `BlockInfo` and
rewrite the request's message to the serialized vote. -/
def determine_vote (block_info : BlockInfo) (nonce_request : NonceRequest) :
    BlockInfo × NonceRequest :=
  let block_vote : NakamotoBlockVote :=
    { signer_signature_hash := block_info.block.signer_signature_hash
      rejected := !(block_info.valid.getD false) }
  ({ block_info with vote := some block_vote },
   { nonce_request with message := SignerWireMessage.voteMsg block_vote })

structure ValidateNonceRequestResult where
  db : SignerDb
  request : NonceRequest
  accepted : Bool
  submitted_for_validation : Option NakamotoBlock
  deriving Repr, DecidableEq

/-- The function `validate_nonce_request`.  In the cached-but-unvalidated
branch the source sets `nonce_request` on its local copy of the looked-up
`BlockInfo` and returns `false`; the local copy is dropped without a DB
write, so the returned DB is unchanged in that branch. -/
def validate_nonce_request (db : SignerDb) (nonce_request : NonceRequest) :
    ValidateNonceRequestResult :=
  match nonce_request.message with
  | .blockMsg block =>
    match block_lookup db block.signer_signature_hash with
    | none =>
      let block_info := BlockInfo.new_with_request block nonce_request
      { db := insert_block db block_info
        request := nonce_request
        accepted := false
        submitted_for_validation := some block }
    | some block_info =>
      match block_info.valid with
      | none =>
        { db := db, request := nonce_request, accepted := false
          submitted_for_validation := none }
      | some _ =>
        let (block_info', nonce_request') := determine_vote block_info nonce_request
        { db := insert_block db block_info'
          request := nonce_request'
          accepted := true
          submitted_for_validation := none }
  | _ =>
    { db := db, request := nonce_request, accepted := false
      submitted_for_validation := none }

/-- The fragment of `handle_block_validate_response` that decides whether a
pending nonce request is replayed: the `BlockInfo` is looked up in the signer
DB and the request is replayed through the packet pipeline iff its
`nonce_request` field is set. -/
def nonce_request_replayed (db : SignerDb) (h : Nat) : Bool :=
  match block_lookup db h with
  | some block_info => block_info.nonce_request.isSome
  | none => false

inductive SignCommandOutcome where
  | abortedNoAggregateKey
  | abortedAlreadySigned
  | started (db : SignerDb)
  deriving Repr, DecidableEq

/-- The `Command::Sign` arm of `execute_command`: abort without an approved
aggregate key; look the block up (defaulting to a fresh `BlockInfo`); abort if
already signed over; otherwise start the signing round (`started` models the
successful `start_signing_round` path, which marks `signed_over` and persists). -/
def execute_command_sign (db : SignerDb) (approved_aggregate_public_key : Option Nat)
    (block : NakamotoBlock) : SignCommandOutcome :=
  if approved_aggregate_public_key.isNone then
    .abortedNoAggregateKey
  else
    let block_info := (block_lookup db block.signer_signature_hash).getD (BlockInfo.new block)
    if block_info.signed_over then
      .abortedAlreadySigned
    else
      .started (insert_block db { block_info with signed_over := true })

/-! ### DKG vote nonce selection (`process_dkg`) -/

/-- A transaction as seen by the nonce-selection logic: its origin address and
origin nonce. -/
structure SignerTransaction where
  origin_address : Nat
  origin_nonce : Nat
  deriving Repr, DecidableEq

/-- The account-nonce map fetched by `get_account_nonces`, as an association
list (addresses whose RPC lookup failed are absent). -/
def lookupNonce (account_nonces : List (Nat × Nat)) (address : Nat) : Option Nat :=
  (account_nonces.find? fun p => p.1 == address).map Prod.snd

/-- Modelled from the spec: `NakamotoSigners::valid_vote_transaction`
(`chainstate/nakamoto/signer_set.rs`, not under src/) — the "account-nonce
filtering" of §4.3: a vote transaction is kept only if its origin address has
a known account nonce and its origin nonce is not stale (below that account
nonce). -/
def valid_vote_transaction (account_nonces : List (Nat × Nat))
    (tx : SignerTransaction) : Bool :=
  match lookupNonce account_nonces tx.origin_address with
  | some account_nonce => account_nonce ≤ tx.origin_nonce
  | none => false

/-- The function `get_signer_transactions`: filter the signer's StackerDB slot
through `valid_vote_transaction`. -/
def get_signer_transactions (account_nonces : List (Nat × Nat))
    (transactions : List SignerTransaction) : List SignerTransaction :=
  transactions.filter (valid_vote_transaction account_nonces)

/-- The nonce selection of `process_dkg`: if the filtered slot holds a
transaction, use its origin nonce plus one (`u64` wrapping add); otherwise the
signer's own account nonce (0 if unavailable). -/
def process_dkg_next_nonce (account_nonces : List (Nat × Nat)) (signer_address : Nat)
    (stackerdb_transactions : List SignerTransaction) : Nat :=
  let account_nonce := (lookupNonce account_nonces signer_address).getD 0
  let signer_transactions := get_signer_transactions account_nonces stackerdb_transactions
  match signer_transactions.head? with
  | some tx => (tx.origin_nonce + 1) % 2 ^ 64
  | none => account_nonce

/-! ## Helper lemmas -/

theorem length_natToBEBytes (w n : Nat) : (natToBEBytes w n).length = w := by
  induction w generalizing n with
  | zero => rfl
  | succ w ih => simp [natToBEBytes, ih]

theorem beBytesToNat_append (l₁ l₂ : List Nat) :
    beBytesToNat (l₁ ++ l₂) = l₂.foldl (fun acc b => acc * 256 + b) (beBytesToNat l₁) := by
  simp [beBytesToNat, List.foldl_append]

theorem beBytesToNat_natToBEBytes (w n : Nat) (h : n < 256 ^ w) :
    beBytesToNat (natToBEBytes w n) = n := by
  induction w generalizing n with
  | zero =>
    simp only [natToBEBytes, beBytesToNat, List.foldl_nil]
    simp at h
    omega
  | succ w ih =>
    have hdiv : n / 256 < 256 ^ w := by
      rw [Nat.div_lt_iff_lt_mul (by norm_num)]
      calc n < 256 ^ (w + 1) := h
        _ = 256 ^ w * 256 := by ring
    rw [natToBEBytes, beBytesToNat_append, ih (n / 256) hdiv]
    simp only [List.foldl_cons, List.foldl_nil]
    omega

theorem foldl_burns_add_mod (M : Nat) (l : List BurnSamplePoint) (a : Nat)
    (h : a + (l.map fun s => s.burns).sum < M) :
    l.foldl (fun acc s => (acc + s.burns) % M) a = a + (l.map fun s => s.burns).sum := by
  induction l generalizing a with
  | nil => simp
  | cons x xs ih =>
    simp only [List.map_cons, List.sum_cons] at h
    have hx : a + x.burns < M := by omega
    simp only [List.foldl_cons, List.map_cons, List.sum_cons]
    rw [Nat.mod_eq_of_lt hx, ih (a + x.burns) (by omega)]
    omega

theorem totalBurnsU128_eq (dist : List BurnSamplePoint)
    (h : (dist.map fun s => s.burns).sum < U128MOD) :
    totalBurnsU128 dist = (dist.map fun s => s.burns).sum := by
  unfold totalBurnsU128
  have := foldl_burns_add_mod U128MOD dist 0 (by simpa using h)
  simpa using this

/-! ## Claim theorems: totals, parsing, signer logic -/

/-- C8: `get_total_burns` returns `none` exactly when the u128 sum of the
`burns` fields meets or exceeds `2^64 - 1` (so a total equal to `u64::MAX`
already fails), and otherwise returns that sum. -/
theorem get_total_burns_spec (dist : List BurnSamplePoint)
    (h : (dist.map fun s => s.burns).sum < U128MOD) :
    (get_total_burns dist = none ↔ 2 ^ 64 - 1 ≤ (dist.map fun s => s.burns).sum) ∧
    ((dist.map fun s => s.burns).sum < 2 ^ 64 - 1 →
      get_total_burns dist = some ((dist.map fun s => s.burns).sum)) := by
  have ht := totalBurnsU128_eq dist h
  constructor
  · simp only [get_total_burns, ht, U64MAX]
    split_ifs with hc
    · exact iff_of_true rfl (by omega)
    · exact iff_of_false (by simp) (by omega)
  · intro hlt
    simp only [get_total_burns, ht, U64MAX]
    rw [if_neg (by omega)]

theorem get_total_burns_spec_witness :
    ((([⟨2 ^ 64 - 1, 0, 0, ⟨[], 0, 0, 0, 0, 0⟩, ⟨0, 0, 0⟩, []⟩] :
        List BurnSamplePoint).map fun s => s.burns).sum < U128MOD) ∧
    get_total_burns
        [⟨2 ^ 64 - 1, 0, 0, ⟨[], 0, 0, 0, 0, 0⟩, ⟨0, 0, 0⟩, []⟩] = none :=
  ⟨by decide,
   ((get_total_burns_spec [⟨2 ^ 64 - 1, 0, 0, ⟨[], 0, 0, 0, 0, 0⟩, ⟨0, 0, 0⟩, []⟩]
      (by decide)).1).mpr (by decide)⟩

/-- C9: `parse_data` fails with `MalformedPayload` on inputs shorter than 73
bytes, and on longer inputs returns the big-endian u64 amount from bytes 0..8
and the 65-byte signature from bytes 8..73. -/
theorem parse_data_spec (data : List Nat) :
    (data.length < 73 →
      PegOutRequestOp.parse_data data = Except.error ParseError.MalformedPayload) ∧
    (73 ≤ data.length →
      PegOutRequestOp.parse_data data =
        Except.ok { amount := beBytesToNat (data.take 8),
                    signature := (data.drop 8).take 65 }) := by
  constructor
  · intro h
    unfold PegOutRequestOp.parse_data
    rw [if_pos h]
  · intro h
    unfold PegOutRequestOp.parse_data
    rw [if_neg (by omega)]

theorem parse_data_spec_witness :
    ((List.replicate 72 0).length < 73 ∧
      PegOutRequestOp.parse_data (List.replicate 72 0) =
        Except.error ParseError.MalformedPayload) ∧
    (73 ≤ (List.replicate 73 1).length ∧
      PegOutRequestOp.parse_data (List.replicate 73 1) =
        Except.ok { amount := beBytesToNat ((List.replicate 73 1).take 8),
                    signature := ((List.replicate 73 1).drop 8).take 65 }) :=
  ⟨⟨by decide, (parse_data_spec (List.replicate 72 0)).1 (by decide)⟩,
   ⟨by decide, (parse_data_spec (List.replicate 73 1)).2 (by decide)⟩⟩

/-- C6 (amended): the nonce of the new DKG vote transaction equals the first
pending StackerDB transaction's origin nonce plus one (wrapping at `2^64`),
regardless of the account nonce; with no pending transaction it equals the
signer's account nonce (0 if unavailable). -/
theorem process_dkg_next_nonce_spec (account_nonces : List (Nat × Nat))
    (signer_address : Nat) (stackerdb_transactions : List SignerTransaction) :
    (∀ tx, (get_signer_transactions account_nonces stackerdb_transactions).head? = some tx →
      process_dkg_next_nonce account_nonces signer_address stackerdb_transactions =
        (tx.origin_nonce + 1) % 2 ^ 64) ∧
    ((get_signer_transactions account_nonces stackerdb_transactions).head? = none →
      process_dkg_next_nonce account_nonces signer_address stackerdb_transactions =
        (lookupNonce account_nonces signer_address).getD 0) := by
  constructor
  · intro tx h
    simp only [process_dkg_next_nonce, h]
  · intro h
    simp only [process_dkg_next_nonce, h]

/-- C6 counterexample: with account nonces `{1 ↦ 5, 2 ↦ 0}`, signer address 1
and a pending slot transaction from address 2 with origin nonce 0, the code
picks nonce `0 + 1 = 1`, not `max(0 + 1, 5) = 5` as the claim states. -/
theorem process_dkg_next_nonce_counterexample :
    (get_signer_transactions [(1, 5), (2, 0)] [⟨2, 0⟩]).head? = some ⟨2, 0⟩ ∧
    (lookupNonce [(1, 5), (2, 0)] 1).getD 0 = 5 ∧
    process_dkg_next_nonce [(1, 5), (2, 0)] 1 [⟨2, 0⟩] = 1 ∧
    process_dkg_next_nonce [(1, 5), (2, 0)] 1 [⟨2, 0⟩] ≠ max (0 + 1) 5 := by
  decide

theorem process_dkg_next_nonce_spec_witness :
    ((get_signer_transactions [(1, 5), (2, 0)] [⟨2, 0⟩]).head? = some ⟨2, 0⟩ ∧
      process_dkg_next_nonce [(1, 5), (2, 0)] 1 [⟨2, 0⟩] = (0 + 1) % 2 ^ 64) ∧
    ((get_signer_transactions [(1, 5)] []).head? = none ∧
      process_dkg_next_nonce [(1, 5)] 1 [] = (lookupNonce [(1, 5)] 1).getD 0) :=
  ⟨⟨by decide, (process_dkg_next_nonce_spec [(1, 5), (2, 0)] 1 [⟨2, 0⟩]).1 ⟨2, 0⟩ (by decide)⟩,
   ⟨by decide, (process_dkg_next_nonce_spec [(1, 5)] 1 []).2 (by decide)⟩⟩

/-- C7: for a block whose `BlockInfo` is cached with `valid` unset, a nonce
request is answered not-yet-valid, but the stored `BlockInfo` is left
unchanged (the request is attached only to a dropped local copy), so the
later block-validation response finds no pending nonce request to replay. -/
theorem validate_nonce_request_drops_pending_request :
    (validate_nonce_request [(7, BlockInfo.new ⟨7⟩)]
        ⟨SignerWireMessage.blockMsg ⟨7⟩⟩).accepted = false ∧
    (validate_nonce_request [(7, BlockInfo.new ⟨7⟩)]
        ⟨SignerWireMessage.blockMsg ⟨7⟩⟩).db = [(7, BlockInfo.new ⟨7⟩)] ∧
    nonce_request_replayed
      (validate_nonce_request [(7, BlockInfo.new ⟨7⟩)]
        ⟨SignerWireMessage.blockMsg ⟨7⟩⟩).db 7 = false := by
  decide

/-- C10: `BlockInfo::new_with_request` sets `signed_over = true` and leaves
`valid` unset, `BlockInfo::new` sets `signed_over = false`, and a `Sign`
command over a cached `new_with_request` block aborts without starting a
signing round. -/
theorem new_with_request_blocks_sign_command :
    (∀ (block : NakamotoBlock) (nonce_request : NonceRequest),
      (BlockInfo.new_with_request block nonce_request).signed_over = true ∧
      (BlockInfo.new_with_request block nonce_request).valid = none) ∧
    (∀ block : NakamotoBlock, (BlockInfo.new block).signed_over = false) ∧
    (∀ (db : SignerDb) (k : Nat) (block : NakamotoBlock) (nonce_request : NonceRequest),
      block_lookup db block.signer_signature_hash
          = some (BlockInfo.new_with_request block nonce_request) →
      execute_command_sign db (some k) block = SignCommandOutcome.abortedAlreadySigned) := by
  refine ⟨fun block nonce_request => ⟨rfl, rfl⟩, fun block => rfl, ?_⟩
  intro db k block nonce_request h
  simp [execute_command_sign, h, BlockInfo.new_with_request]

theorem new_with_request_blocks_sign_command_witness :
    block_lookup [(7, BlockInfo.new_with_request ⟨7⟩ ⟨SignerWireMessage.otherMsg⟩)]
        (NakamotoBlock.mk 7).signer_signature_hash
      = some (BlockInfo.new_with_request ⟨7⟩ ⟨SignerWireMessage.otherMsg⟩) ∧
    execute_command_sign [(7, BlockInfo.new_with_request ⟨7⟩ ⟨SignerWireMessage.otherMsg⟩)]
        (some 1) ⟨7⟩ = SignCommandOutcome.abortedAlreadySigned :=
  ⟨by decide,
   new_with_request_blocks_sign_command.2.2
     [(7, BlockInfo.new_with_request ⟨7⟩ ⟨SignerWireMessage.otherMsg⟩)] 1 ⟨7⟩
     ⟨SignerWireMessage.otherMsg⟩ (by decide)⟩

/-- C3: `make_sighash_presign` hashes exactly the 49-byte input
`prev ‖ auth_flag ‖ fee_rate_be8 ‖ nonce_be8`, and `make_sighash_postsign`
hashes exactly the 98-byte input `presign ‖ key_encoding ‖ signature`, where
the key-encoding byte comes from the pubkey's compression flag. -/
theorem make_sighash_input_bytes (H : List Nat → List Nat)
    (cur_sighash presign sig : List Nat) (cond_code : TransactionAuthFlags)
    (fee_rate nonce : Nat) (pubkey : StacksPublicKey)
    (hcur : cur_sighash.length = 32) (hpre : presign.length = 32)
    (hsig : sig.length = 65) :
    (make_sighash_presign H cur_sighash cond_code fee_rate nonce =
        some (H (cur_sighash ++ cond_code.toU8 ::
          (natToBEBytes 8 fee_rate ++ natToBEBytes 8 nonce))) ∧
      (cur_sighash ++ cond_code.toU8 ::
          (natToBEBytes 8 fee_rate ++ natToBEBytes 8 nonce)).length = 49) ∧
    (make_sighash_postsign H presign pubkey sig =
        some (H (presign ++
          (if pubkey.compressed then TransactionPublicKeyEncoding.Compressed
           else TransactionPublicKeyEncoding.Uncompressed).toU8 :: sig)) ∧
      (presign ++
          (if pubkey.compressed then TransactionPublicKeyEncoding.Compressed
           else TransactionPublicKeyEncoding.Uncompressed).toU8 :: sig).length = 98) := by
  have h1 : (cur_sighash ++ cond_code.toU8 ::
      (natToBEBytes 8 fee_rate ++ natToBEBytes 8 nonce)).length = 49 := by
    simp [hcur, length_natToBEBytes]
  have h2 : (presign ++
      (if pubkey.compressed then TransactionPublicKeyEncoding.Compressed
       else TransactionPublicKeyEncoding.Uncompressed).toU8 :: sig).length = 98 := by
    simp [hpre, hsig]
  refine ⟨⟨?_, h1⟩, ⟨?_, h2⟩⟩
  · unfold make_sighash_presign
    rw [if_pos (by omega)]
  · unfold make_sighash_postsign
    rw [if_pos (by omega)]

theorem make_sighash_input_bytes_witness :
    (List.replicate 32 0).length = 32 ∧ (List.replicate 65 2).length = 65 ∧
    make_sighash_presign (fun _ => []) (List.replicate 32 0)
        TransactionAuthFlags.AuthStandard 3 4 =
      some ((fun _ => ([] : List Nat)) (List.replicate 32 0 ++
        TransactionAuthFlags.AuthStandard.toU8 ::
          (natToBEBytes 8 3 ++ natToBEBytes 8 4))) :=
  ⟨by decide, by decide,
   ((make_sighash_input_bytes (fun _ => []) (List.replicate 32 0) (List.replicate 32 0)
      (List.replicate 65 2) TransactionAuthFlags.AuthStandard 3 4 ⟨[], true⟩
      (by decide) (by decide) (by decide)).1).1⟩

theorem next_verification_pubkey_compressed (H : List Nat → List Nat)
    (recover : List Nat → List Nat → Option StacksPublicKey)
    (cur_sighash : List Nat) (cond_code : TransactionAuthFlags) (fee_rate nonce : Nat)
    (key_encoding : TransactionPublicKeyEncoding) (sig : List Nat)
    (pubk : StacksPublicKey) (next_sighash : List Nat)
    (h : next_verification H recover cur_sighash cond_code fee_rate nonce key_encoding sig
        = some (pubk, next_sighash)) :
    pubk.compressed = decide (key_encoding = TransactionPublicKeyEncoding.Compressed) := by
  unfold next_verification at h
  simp only [Option.bind_eq_bind, Option.bind_eq_some] at h
  obtain ⟨s, _, pk0, _, ns, _, h⟩ := h
  simp only [Option.some.injEq, Prod.mk.injEq] at h
  rw [← h.1]

/-- C4: for the witness hash modes (`P2WPKH` single-sig, `P2WSH` multisig),
verification fails whenever the condition contains an uncompressed public key
or a signature field declared with uncompressed key encoding. -/
theorem verify_rejects_uncompressed (H : List Nat → List Nat)
    (recover : List Nat → List Nat → Option StacksPublicKey)
    (addrHash : AddressHashMode → Nat → List StacksPublicKey → Nat)
    (initial_sighash : List Nat) (cond_code : TransactionAuthFlags) :
    (∀ c : SinglesigSpendingCondition,
      c.hash_mode = SinglesigHashMode.P2WPKH →
      c.key_encoding = TransactionPublicKeyEncoding.Uncompressed →
      c.verify H recover addrHash initial_sighash cond_code = none) ∧
    (∀ c : MultisigSpendingCondition,
      c.hash_mode = MultisigHashMode.P2WSH →
      hasUncompressedField c.fields = true →
      c.verify H recover addrHash initial_sighash cond_code = none) := by
  constructor
  · intro c hmode henc
    unfold SinglesigSpendingCondition.verify
    cases hnv : next_verification H recover initial_sighash cond_code c.fee_rate c.nonce
        c.key_encoding c.signature with
    | none => simp [hnv]
    | some pr =>
      obtain ⟨pubkey, next_sighash⟩ := pr
      have hcomp : pubkey.compressed = false := by
        rw [next_verification_pubkey_compressed H recover initial_sighash cond_code
          c.fee_rate c.nonce c.key_encoding c.signature pubkey next_sighash hnv, henc]
        decide
      simp [hnv, hmode, from_public_keys, SinglesigHashMode.to_address_hash_mode, hcomp]
  · intro c hmode hunc
    unfold MultisigSpendingCondition.verify
    cases hgo : multisigVerifyGo H recover cond_code c.fee_rate c.nonce c.fields
        initial_sighash 0 [] with
    | none => simp [hgo]
    | some tri =>
      obtain ⟨pubkeys, cur_sighash, num_sigs⟩ := tri
      by_cases hn : num_sigs = c.signatures_required
      · simp [hgo, hn, hunc, hmode]
      · simp [hgo, hn]

theorem verify_rejects_uncompressed_witness :
    ((⟨SinglesigHashMode.P2WPKH, 0, 0, 0, TransactionPublicKeyEncoding.Uncompressed,
        List.replicate 65 0⟩ : SinglesigSpendingCondition).hash_mode
      = SinglesigHashMode.P2WPKH) ∧
    (SinglesigSpendingCondition.verify (fun _ => []) (fun _ _ => some ⟨[], true⟩)
      (fun _ _ _ => 0)
      ⟨SinglesigHashMode.P2WPKH, 0, 0, 0, TransactionPublicKeyEncoding.Uncompressed,
        List.replicate 65 0⟩
      (List.replicate 32 0) TransactionAuthFlags.AuthStandard = none) ∧
    ((⟨MultisigHashMode.P2WSH, 0, 0, 0, [TransactionAuthField.PublicKey ⟨[], false⟩], 0⟩ :
        MultisigSpendingCondition).hash_mode = MultisigHashMode.P2WSH) ∧
    (MultisigSpendingCondition.verify (fun _ => []) (fun _ _ => some ⟨[], true⟩)
      (fun _ _ _ => 0)
      ⟨MultisigHashMode.P2WSH, 0, 0, 0, [TransactionAuthField.PublicKey ⟨[], false⟩], 0⟩
      (List.replicate 32 0) TransactionAuthFlags.AuthStandard = none) :=
  ⟨rfl,
   (verify_rejects_uncompressed (fun _ => []) (fun _ _ => some ⟨[], true⟩) (fun _ _ _ => 0)
      (List.replicate 32 0) TransactionAuthFlags.AuthStandard).1
     ⟨SinglesigHashMode.P2WPKH, 0, 0, 0, TransactionPublicKeyEncoding.Uncompressed,
       List.replicate 65 0⟩ rfl rfl,
   rfl,
   (verify_rejects_uncompressed (fun _ => []) (fun _ _ => some ⟨[], true⟩) (fun _ _ _ => 0)
      (List.replicate 32 0) TransactionAuthFlags.AuthStandard).2
     ⟨MultisigHashMode.P2WSH, 0, 0, 0, [TransactionAuthField.PublicKey ⟨[], false⟩], 0⟩
     rfl (by decide)⟩

/-! ## Lemmas about the burn distribution -/

theorem applyBurnStep_length (samples : List BurnSamplePoint) (u : UserBurnSupportOp) :
    (applyBurnStep samples u).length = samples.length := by
  induction samples with
  | nil => rfl
  | cons s rest ih =>
    unfold applyBurnStep
    split
    · simp
    · simp [ih]

theorem applyBurnStep_map_pair (samples : List BurnSamplePoint) (u : UserBurnSupportOp) :
    (applyBurnStep samples u).map pairOfSample = samples.map pairOfSample := by
  induction samples with
  | nil => rfl
  | cons s rest ih =>
    unfold applyBurnStep
    split
    · simp [pairOfSample]
    · simp [ih]

theorem applyBurnStep_getElem? (samples : List BurnSamplePoint) (u : UserBurnSupportOp)
    (hnd : (samples.map pairOfSample).Nodup) (i : Nat) :
    (applyBurnStep samples u)[i]? = (samples[i]?).map fun s =>
      if pairOfSample s = pairOfUserBurn u then
        { s with burns := (s.burns + u.burn_fee) % U128MOD,
                 user_burns := s.user_burns ++ [u] }
      else s := by
  induction samples generalizing i with
  | nil => simp [applyBurnStep]
  | cons s rest ih =>
    rw [List.map_cons, List.nodup_cons] at hnd
    obtain ⟨hni, hnd'⟩ := hnd
    unfold applyBurnStep
    by_cases hp : pairOfSample s = pairOfUserBurn u
    · rw [if_pos hp]
      cases i with
      | zero => simp [hp]
      | succ j =>
        simp only [List.getElem?_cons_succ]
        cases hj : rest[j]? with
        | none => simp
        | some s' =>
          have hs' : s' ∈ rest := List.getElem?_mem hj
          have hne : ¬ pairOfSample s' = pairOfUserBurn u := by
            intro hcontra
            exact hni (by
              rw [show pairOfSample s = pairOfSample s' from hp.trans hcontra.symm]
              exact List.mem_map_of_mem pairOfSample hs')
          simp [hne]
    · rw [if_neg hp]
      cases i with
      | zero => simp [hp]
      | succ j =>
        simp only [List.getElem?_cons_succ]
        exact ih hnd' j

theorem applyBurnStep_burns_lt (samples : List BurnSamplePoint) (u : UserBurnSupportOp)
    (hb : ∀ s ∈ samples, s.burns < U128MOD) :
    ∀ s' ∈ applyBurnStep samples u, s'.burns < U128MOD := by
  induction samples with
  | nil => simp [applyBurnStep]
  | cons s rest ih =>
    unfold applyBurnStep
    split
    · intro s' hs'
      cases List.mem_cons.mp hs' with
      | inl he =>
        rw [he]
        exact Nat.mod_lt _ (by norm_num [U128MOD])
      | inr hr => exact hb s' (List.mem_cons_of_mem _ hr)
    · intro s' hs'
      cases List.mem_cons.mp hs' with
      | inl he =>
        rw [he]
        exact hb s (List.mem_cons_self _ _)
      | inr hr => exact ih (fun t ht => hb t (List.mem_cons_of_mem _ ht)) s' hr

theorem applyBurnStep_sum_le (samples : List BurnSamplePoint) (u : UserBurnSupportOp) :
    ((applyBurnStep samples u).map fun s => s.burns).sum ≤
      ((samples.map fun s => s.burns).sum) + u.burn_fee := by
  induction samples with
  | nil => simp [applyBurnStep]
  | cons s rest ih =>
    unfold applyBurnStep
    split
    · simp only [List.map_cons, List.sum_cons]
      have := Nat.mod_le (s.burns + u.burn_fee) U128MOD
      omega
    · simp only [List.map_cons, List.sum_cons]
      omega

theorem applyFold_burns_lt (user_burns : List UserBurnSupportOp) :
    ∀ (samples : List BurnSamplePoint), (∀ s ∈ samples, s.burns < U128MOD) →
    ∀ s' ∈ user_burns.foldl applyBurnStep samples, s'.burns < U128MOD := by
  induction user_burns with
  | nil => intro samples hb; simpa using hb
  | cons u rest ih =>
    intro samples hb
    simp only [List.foldl_cons]
    exact ih _ (applyBurnStep_burns_lt samples u hb)

theorem applyFold_map_pair (user_burns : List UserBurnSupportOp) :
    ∀ samples : List BurnSamplePoint,
    (user_burns.foldl applyBurnStep samples).map pairOfSample = samples.map pairOfSample := by
  induction user_burns with
  | nil => intro samples; rfl
  | cons u rest ih =>
    intro samples
    simp only [List.foldl_cons]
    rw [ih, applyBurnStep_map_pair]

theorem applyFold_sum_le (user_burns : List UserBurnSupportOp) :
    ∀ samples : List BurnSamplePoint,
    ((user_burns.foldl applyBurnStep samples).map fun s => s.burns).sum ≤
      ((samples.map fun s => s.burns).sum) + sumFees user_burns := by
  induction user_burns with
  | nil => intro samples; simp [sumFees]
  | cons u rest ih =>
    intro samples
    simp only [List.foldl_cons]
    calc ((rest.foldl applyBurnStep (applyBurnStep samples u)).map fun s => s.burns).sum
        ≤ (((applyBurnStep samples u).map fun s => s.burns).sum) + sumFees rest := ih _
      _ ≤ ((samples.map fun s => s.burns).sum) + u.burn_fee + sumFees rest := by
          have := applyBurnStep_sum_le samples u
          omega
      _ = ((samples.map fun s => s.burns).sum) + sumFees (u :: rest) := by
          simp [sumFees]; omega

theorem matchedBurns_congr (s s' : BurnSamplePoint) (user_burns : List UserBurnSupportOp)
    (h : pairOfSample s = pairOfSample s') :
    matchedBurns s user_burns = matchedBurns s' user_burns := by
  unfold matchedBurns
  simp only [h]

/-- Each sample after `apply_user_burns`' fold: the burns field has gained the
fees of exactly the matching user burns (mod `2^128`), which are appended in
input order. -/
theorem applyFold_getElem? (user_burns : List UserBurnSupportOp) :
    ∀ (samples : List BurnSamplePoint), (samples.map pairOfSample).Nodup →
    (∀ s ∈ samples, s.burns < U128MOD) → ∀ i : Nat,
    (user_burns.foldl applyBurnStep samples)[i]? = (samples[i]?).map fun (s : BurnSamplePoint) =>
      { s with burns := (s.burns + sumFees (matchedBurns s user_burns)) % U128MOD,
               user_burns := s.user_burns ++ matchedBurns s user_burns } := by
  induction user_burns with
  | nil =>
    intro samples hnd hb i
    simp only [List.foldl_nil, matchedBurns, List.filter_nil, sumFees, List.map_nil,
      List.sum_nil, Nat.add_zero, List.append_nil]
    cases hi : samples[i]? with
    | none => simp
    | some s =>
      have hmod : s.burns % U128MOD = s.burns :=
        Nat.mod_eq_of_lt (hb s (List.getElem?_mem hi))
      simp [hmod]
  | cons u rest ih =>
    intro samples hnd hb i
    simp only [List.foldl_cons]
    rw [ih (applyBurnStep samples u)
        (by rw [applyBurnStep_map_pair]; exact hnd)
        (applyBurnStep_burns_lt samples u hb) i,
      applyBurnStep_getElem? samples u hnd i]
    cases hi : samples[i]? with
    | none => simp
    | some s =>
      simp only [Option.map_some']
      by_cases hp : pairOfSample s = pairOfUserBurn u
      · rw [if_pos hp]
        have hpair : pairOfSample
            { s with burns := (s.burns + u.burn_fee) % U128MOD,
                     user_burns := s.user_burns ++ [u] } = pairOfSample s := rfl
        have hm : matchedBurns s (u :: rest) = u :: matchedBurns s rest := by
          unfold matchedBurns
          rw [List.filter_cons, if_pos (by simp [hp.symm])]
        rw [matchedBurns_congr _ s rest hpair, hm]
        simp only [Option.some.injEq]
        have hburns : ((s.burns + u.burn_fee) % U128MOD + sumFees (matchedBurns s rest))
            % U128MOD = (s.burns + sumFees (u :: matchedBurns s rest)) % U128MOD := by
          rw [Nat.mod_add_mod]
          congr 1
          simp [sumFees]
          omega
        rw [← hm] at hburns ⊢
        simp [hburns]
        exact hm.symm
      · rw [if_neg hp]
        have hm : matchedBurns s (u :: rest) = matchedBurns s rest := by
          unfold matchedBurns
          rw [List.filter_cons, if_neg (by simp; exact fun hcontra => hp hcontra.symm)]
        rw [hm]

theorem sumFees_filter_le (p : UserBurnSupportOp → Bool) (user_burns : List UserBurnSupportOp) :
    sumFees (user_burns.filter p) ≤ sumFees user_burns := by
  induction user_burns with
  | nil => simp [sumFees]
  | cons u rest ih =>
    rw [List.filter_cons]
    by_cases hp : p u = true
    · rw [if_pos hp]
      simp only [sumFees, List.map_cons, List.sum_cons] at *
      omega
    · rw [if_neg hp]
      simp only [sumFees, List.map_cons, List.sum_cons] at *
      omega

theorem sumFees_le (user_burns : List UserBurnSupportOp)
    (hu : ∀ u ∈ user_burns, u.burn_fee < 2 ^ 64) :
    sumFees user_burns ≤ user_burns.length * (2 ^ 64 - 1) := by
  induction user_burns with
  | nil => simp [sumFees]
  | cons u rest ih =>
    have h1 := hu u (List.mem_cons_self _ _)
    have h2 := ih fun t ht => hu t (List.mem_cons_of_mem _ ht)
    simp only [sumFees, List.map_cons, List.sum_cons, List.length_cons, Nat.succ_mul] at *
    omega

theorem initialSamples_spec (commits : List LeaderBlockCommitOp)
    (keys : List LeaderKeyRegisterOp) (samples : List BurnSamplePoint)
    (h : initialSamples commits keys = some samples) :
    (samples.map fun s => s.burns) = (commits.map fun c => c.burn_fee) ∧
    ∀ s ∈ samples, s.user_burns = [] ∧ s.burns = s.candidate.burn_fee ∧
      s.candidate ∈ commits := by
  induction commits generalizing samples with
  | nil =>
    unfold initialSamples at h
    cases h
    simp
  | cons bc rest ih =>
    unfold initialSamples at h
    cases hk : findKey keys bc with
    | none => rw [hk] at h; cases h
    | some k =>
      rw [hk] at h
      cases hr : initialSamples rest keys with
      | none => rw [hr] at h; cases h
      | some samples' =>
        rw [hr] at h
        cases h
        obtain ⟨ih1, ih2⟩ := ih samples' hr
        constructor
        · simp [ih1]
        · intro s hs
          cases List.mem_cons.mp hs with
          | inl he =>
            rw [he]
            exact ⟨rfl, rfl, List.mem_cons_self _ _⟩
          | inr hr' =>
            obtain ⟨h1, h2, h3⟩ := ih2 s hr'
            exact ⟨h1, h2, List.mem_cons_of_mem _ h3⟩

theorem sortRangesGo_preserves (total : Nat) :
    ∀ (l : List BurnSamplePoint) (prevEnd acc : Nat) (out : List BurnSamplePoint),
    sortRangesGo total prevEnd acc l = some out →
    out.length = l.length ∧
    ∀ i : Nat, ∀ s, out[i]? = some s → ∃ s0, l[i]? = some s0 ∧
      s.burns = s0.burns ∧ s.user_burns = s0.user_burns ∧
      s.candidate = s0.candidate ∧ s.key = s0.key := by
  intro l
  induction l with
  | nil =>
    intro prevEnd acc out h
    unfold sortRangesGo at h
    cases h
    exact ⟨rfl, by intro i s hs; simp at hs⟩
  | cons a rest ih =>
    intro prevEnd acc out h
    unfold sortRangesGo at h
    by_cases hg : U256MAXV * ((acc + a.burns) % U512MOD) < U512MOD
    · rw [if_pos hg] at h
      cases hrec : sortRangesGo total ((U256MAXV * ((acc + a.burns) % U512MOD) / total) % U256MOD)
          ((acc + a.burns) % U512MOD) rest with
      | none => rw [hrec] at h; cases h
      | some out' =>
        rw [hrec] at h
        simp only [Option.map_some', Option.some.injEq] at h
        obtain ⟨ihlen, ihget⟩ := ih _ _ _ hrec
        subst h
        refine ⟨by simp [ihlen], ?_⟩
        intro i s hs
        cases i with
        | zero =>
          simp only [List.getElem?_cons_zero, Option.some.injEq] at hs
          exact ⟨a, by simp, by rw [← hs], by rw [← hs], by rw [← hs], by rw [← hs]⟩
        | succ j =>
          simp only [List.getElem?_cons_succ] at hs ⊢
          exact ihget j s hs
    · rw [if_neg hg] at h
      cases h

/-- Closed form of the sortition ranges when no overflow can occur: range ends
are `(2^256 - 1) * (running prefix burn total) / total`, each range starts
where the previous one ended. -/
theorem sortRangesGo_ranges (total : Nat) (h0 : 0 < total) (h1 : total < U128MOD) :
    ∀ (l : List BurnSamplePoint) (prevEnd acc : Nat),
    acc + (l.map fun s => s.burns).sum ≤ total →
    ∃ out, sortRangesGo total prevEnd acc l = some out ∧
      out.length = l.length ∧
      ∀ i : Nat, ∀ s, out[i]? = some s →
        s.range_end = U256MAXV * (acc + (((l.map fun s => s.burns).take (i + 1))).sum) / total ∧
        s.range_start = (if i = 0 then prevEnd
          else U256MAXV * (acc + (((l.map fun s => s.burns).take i)).sum) / total) := by
  intro l
  induction l with
  | nil =>
    intro prevEnd acc hacc
    exact ⟨[], rfl, rfl, by intro i s hs; simp at hs⟩
  | cons a rest ih =>
    intro prevEnd acc hacc
    simp only [List.map_cons, List.sum_cons] at hacc
    have hacc' : acc + a.burns ≤ total := by omega
    have hmod : (acc + a.burns) % U512MOD = acc + a.burns := by
      apply Nat.mod_eq_of_lt
      have h2 : U128MOD < U512MOD := by
        unfold U128MOD U512MOD
        exact Nat.pow_lt_pow_right (by norm_num) (by norm_num)
      omega
    have hq : U256MAXV * (acc + a.burns) / total ≤ U256MAXV :=
      calc U256MAXV * (acc + a.burns) / total ≤ U256MAXV * total / total :=
            Nat.div_le_div_right (Nat.mul_le_mul_left _ hacc')
        _ = U256MAXV := Nat.mul_div_cancel U256MAXV h0
    have hguard : U256MAXV * ((acc + a.burns) % U512MOD) < U512MOD := by
      rw [hmod]
      have hb1 : U256MAXV ≤ 2 ^ 256 := by unfold U256MAXV; omega
      have hb2 : acc + a.burns ≤ 2 ^ 128 := by
        have h3 : U128MOD = 2 ^ 128 := rfl
        omega
      calc U256MAXV * (acc + a.burns) ≤ 2 ^ 256 * 2 ^ 128 := Nat.mul_le_mul hb1 hb2
        _ < U512MOD := by
            unfold U512MOD
            rw [← pow_add]
            exact Nat.pow_lt_pow_right (by norm_num) (by norm_num)
    have hqmod : (U256MAXV * ((acc + a.burns) % U512MOD) / total) % U256MOD
        = U256MAXV * (acc + a.burns) / total := by
      rw [hmod]
      apply Nat.mod_eq_of_lt
      have h4 : U256MAXV < U256MOD := by
        unfold U256MAXV U256MOD
        exact Nat.sub_lt (Nat.pos_pow_of_pos 256 (by norm_num)) (by norm_num)
      omega
    obtain ⟨out', hrec, hlen, hget⟩ :=
      ih (U256MAXV * (acc + a.burns) / total) (acc + a.burns) (by omega)
    have hdef : sortRangesGo total prevEnd acc (a :: rest) =
        some ({ a with range_start := prevEnd,
                       range_end := U256MAXV * (acc + a.burns) / total } :: out') := by
      unfold sortRangesGo
      rw [if_pos hguard, hqmod, hmod, hrec]
      rfl
    refine ⟨_, hdef, by simp [hlen], ?_⟩
    intro i s hs
    cases i with
    | zero =>
      simp only [List.getElem?_cons_zero, Option.some.injEq] at hs
      subst hs
      constructor
      · simp
      · simp
    | succ j =>
      simp only [List.getElem?_cons_succ] at hs
      obtain ⟨he, hst⟩ := hget j s hs
      constructor
      · rw [he]
        congr 2
        simp only [List.map_cons, List.take_succ_cons, List.sum_cons]
        omega
      · rw [hst]
        by_cases hj : j = 0
        · subst hj
          simp
        · rw [if_neg hj, if_neg (by omega : ¬ j + 1 = 0)]
          cases j with
          | zero => exact absurd rfl hj
          | succ k =>
            congr 2
            simp only [List.map_cons, List.take_succ_cons, List.sum_cons]
            omega

theorem make_sortition_ranges_preserves (l dist : List BurnSamplePoint)
    (h : make_sortition_ranges l = some dist) :
    dist.length = l.length ∧
    ∀ i : Nat, ∀ s, dist[i]? = some s → ∃ s0, l[i]? = some s0 ∧
      s.burns = s0.burns ∧ s.user_burns = s0.user_burns ∧
      s.candidate = s0.candidate ∧ s.key = s0.key := by
  match l with
  | [] =>
    unfold make_sortition_ranges at h
    cases h
    exact ⟨rfl, by intro i s hs; simp at hs⟩
  | [a] =>
    unfold make_sortition_ranges at h
    cases h
    refine ⟨rfl, ?_⟩
    intro i s hs
    cases i with
    | zero =>
      simp only [List.getElem?_cons_zero, Option.some.injEq] at hs
      exact ⟨a, by simp, by rw [← hs], by rw [← hs], by rw [← hs], by rw [← hs]⟩
    | succ j => simp at hs
  | a :: b :: rest =>
    unfold make_sortition_ranges at h
    cases hg : get_total_burns (a :: b :: rest) with
    | none => simp only [hg] at h; simp at h
    | some total =>
      simp only [hg] at h
      by_cases ht : total = 0
      · rw [if_pos ht] at h; cases h
      · rw [if_neg ht] at h
        exact sortRangesGo_preserves total _ _ _ _ h

theorem make_distribution_decomp (commits : List LeaderBlockCommitOp)
    (keys : List LeaderKeyRegisterOp) (user_burns : List UserBurnSupportOp)
    (dist : List BurnSamplePoint) (hne : commits ≠ [])
    (h : make_distribution commits keys user_burns = some dist) :
    ∃ samples, initialSamples commits keys = some samples ∧
      (samples.map pairOfSample).Nodup ∧
      make_sortition_ranges (user_burns.foldl applyBurnStep samples) = some dist := by
  cases commits with
  | nil => exact absurd rfl hne
  | cons c0 crest =>
    simp only [make_distribution] at h
    by_cases h1 : opsSanityChecks c0 (c0 :: crest) keys user_burns = true
    · rw [if_pos h1] at h
      by_cases h2 : (keys.map fun k => (k.block_number, k.vtxindex)).Nodup
      · rw [if_pos h2] at h
        cases hs : initialSamples (c0 :: crest) keys with
        | none => simp only [hs] at h; exact Option.noConfusion h
        | some samples =>
          simp only [hs] at h
          by_cases h3 : (samples.map pairOfSample).Nodup
          · have h4 : applyUserBurns samples user_burns
                = some (user_burns.foldl applyBurnStep samples) := by
              unfold applyUserBurns
              rw [if_pos h3]
            simp only [h4] at h
            exact ⟨samples, rfl, h3, h⟩
          · have h4 : applyUserBurns samples user_burns = none := by
              unfold applyUserBurns
              rw [if_neg h3]
            simp only [h4] at h
            exact Option.noConfusion h
      · rw [if_neg h2] at h; cases h
    · rw [if_neg h1] at h; cases h

/-- C2: every sample of a successful `make_distribution` carries exactly the
input user burns whose `(VRF key hex, block-header-hash-160)` pair matches it,
in input order, and its `burns` field is the candidate's burn fee plus their
fees; non-matching user burns are discarded without making the run fail
(`apply_user_burns` fails only on duplicate sample pairs, independently of the
user-burn list). -/
theorem make_distribution_user_burns
    (commits : List LeaderBlockCommitOp) (keys : List LeaderKeyRegisterOp)
    (user_burns : List UserBurnSupportOp) (dist : List BurnSamplePoint)
    (hc : ∀ c ∈ commits, c.burn_fee < 2 ^ 64)
    (hu : ∀ u ∈ user_burns, u.burn_fee < 2 ^ 64)
    (hul : user_burns.length < 2 ^ 63)
    (hmk : make_distribution commits keys user_burns = some dist) :
    (∀ i : Nat, ∀ s, dist[i]? = some s →
      s.user_burns = matchedBurns s user_burns ∧
      s.burns = s.candidate.burn_fee + sumFees s.user_burns) ∧
    (∀ (samples : List BurnSamplePoint) (ubs : List UserBurnSupportOp),
      (applyUserBurns samples ubs).isSome ↔ (samples.map pairOfSample).Nodup) := by
  have hiso : ∀ (samples : List BurnSamplePoint) (ubs : List UserBurnSupportOp),
      (applyUserBurns samples ubs).isSome ↔ (samples.map pairOfSample).Nodup := by
    intro samples ubs
    unfold applyUserBurns
    split_ifs with hnd <;> simp [hnd]
  refine ⟨?_, hiso⟩
  cases commits with
  | nil =>
    unfold make_distribution at hmk
    cases hmk
    intro i s hs
    simp at hs
  | cons c0 crest =>
    obtain ⟨samples, hinit, hnd, hranges⟩ :=
      make_distribution_decomp _ _ _ _ (by simp) hmk
    obtain ⟨hmap, hprops⟩ := initialSamples_spec _ _ _ hinit
    have hb : ∀ s ∈ samples, s.burns < U128MOD := by
      intro s hs
      obtain ⟨_, hburn, hcand⟩ := hprops s hs
      have h1 := hc s.candidate hcand
      have h2 : (2 : Nat) ^ 64 < U128MOD := by
        unfold U128MOD
        exact Nat.pow_lt_pow_right (by norm_num) (by norm_num)
      omega
    obtain ⟨hdlen, hpres⟩ := make_sortition_ranges_preserves _ _ hranges
    intro i s hs
    obtain ⟨s0, hs0, hb1, hub1, hc1, hk1⟩ := hpres i s hs
    have hfold := applyFold_getElem? user_burns samples hnd hb i
    rw [hs0] at hfold
    cases hs1 : samples[i]? with
    | none => rw [hs1] at hfold; simp at hfold
    | some s1 =>
      rw [hs1] at hfold
      simp only [Option.map_some', Option.some.injEq] at hfold
      obtain ⟨hub2, hfee, hcand⟩ := hprops s1 (List.getElem?_mem hs1)
      have hcand2 : s.candidate = s1.candidate := by rw [hc1, hfold]
      have hkey2 : s.key = s1.key := by rw [hk1, hfold]
      have hpair : pairOfSample s = pairOfSample s1 := by
        unfold pairOfSample
        rw [hcand2, hkey2]
      have huser : s.user_burns = matchedBurns s1 user_burns := by
        rw [hub1, hfold]
        simp [hub2]
      have hfee1 := hc s1.candidate hcand
      have hsum : sumFees (matchedBurns s1 user_burns) ≤ sumFees user_burns :=
        sumFees_filter_le _ _
      have hsum2 := sumFees_le user_burns hu
      have hnowrap : s1.candidate.burn_fee + sumFees (matchedBurns s1 user_burns)
          < U128MOD := by
        have h4 : U128MOD = 2 ^ 128 := rfl
        omega
      constructor
      · rw [huser, matchedBurns_congr s s1 user_burns hpair]
      · rw [hb1, hfold]
        show (s1.burns + sumFees (matchedBurns s1 user_burns)) % U128MOD
          = s.candidate.burn_fee + sumFees s.user_burns
        rw [hfee, Nat.mod_eq_of_lt hnowrap, huser, hcand2]

theorem make_distribution_user_burns_witness :
    make_distribution [⟨[1], 10, 1, 100, 110, 5⟩] [⟨11, 100, 1⟩]
        [⟨11, [1], 50, 110, 9⟩, ⟨99, [1], 60, 110, 10⟩]
      = some [⟨150, 0, U256MAXV, ⟨[1], 10, 1, 100, 110, 5⟩, ⟨11, 100, 1⟩,
          [⟨11, [1], 50, 110, 9⟩]⟩] ∧
    ((⟨150, 0, U256MAXV, ⟨[1], 10, 1, 100, 110, 5⟩, ⟨11, 100, 1⟩,
        [⟨11, [1], 50, 110, 9⟩]⟩ : BurnSamplePoint).user_burns
      = matchedBurns
          ⟨150, 0, U256MAXV, ⟨[1], 10, 1, 100, 110, 5⟩, ⟨11, 100, 1⟩,
            [⟨11, [1], 50, 110, 9⟩]⟩
          [⟨11, [1], 50, 110, 9⟩, ⟨99, [1], 60, 110, 10⟩] ∧
      (⟨150, 0, U256MAXV, ⟨[1], 10, 1, 100, 110, 5⟩, ⟨11, 100, 1⟩,
        [⟨11, [1], 50, 110, 9⟩]⟩ : BurnSamplePoint).burns
      = (⟨150, 0, U256MAXV, ⟨[1], 10, 1, 100, 110, 5⟩, ⟨11, 100, 1⟩,
          [⟨11, [1], 50, 110, 9⟩]⟩ : BurnSamplePoint).candidate.burn_fee
        + sumFees (⟨150, 0, U256MAXV, ⟨[1], 10, 1, 100, 110, 5⟩, ⟨11, 100, 1⟩,
            [⟨11, [1], 50, 110, 9⟩]⟩ : BurnSamplePoint).user_burns) :=
  ⟨by decide,
   (make_distribution_user_burns [⟨[1], 10, 1, 100, 110, 5⟩] [⟨11, 100, 1⟩]
      [⟨11, [1], 50, 110, 9⟩, ⟨99, [1], 60, 110, 10⟩]
      [⟨150, 0, U256MAXV, ⟨[1], 10, 1, 100, 110, 5⟩, ⟨11, 100, 1⟩,
        [⟨11, [1], 50, 110, 9⟩]⟩]
      (by decide) (by decide) (by decide) (by decide)).1 0
     ⟨150, 0, U256MAXV, ⟨[1], 10, 1, 100, 110, 5⟩, ⟨11, 100, 1⟩,
       [⟨11, [1], 50, 110, 9⟩]⟩ (by decide)⟩

/-- C1: for a non-empty `make_distribution` output the half-open ranges tile
the whole 256-bit space: the first sample starts at 0, each sample starts
where the previous one ends, and the last sample ends at `Uint256::MAX`. -/
theorem make_distribution_ranges_tile
    (commits : List LeaderBlockCommitOp) (keys : List LeaderKeyRegisterOp)
    (user_burns : List UserBurnSupportOp) (dist : List BurnSamplePoint)
    (hc : ∀ c ∈ commits, c.burn_fee < 2 ^ 64)
    (hu : ∀ u ∈ user_burns, u.burn_fee < 2 ^ 64)
    (hcl : commits.length < 2 ^ 63) (hul : user_burns.length < 2 ^ 63)
    (hmk : make_distribution commits keys user_burns = some dist)
    (hne : dist ≠ []) :
    (∃ s0, dist[0]? = some s0 ∧ s0.range_start = 0) ∧
    (∀ i : Nat, ∀ s s', dist[i]? = some s → dist[i + 1]? = some s' →
      s'.range_start = s.range_end) ∧
    (∃ sl, dist[dist.length - 1]? = some sl ∧ sl.range_end = U256MAXV) := by
  cases commits with
  | nil =>
    unfold make_distribution at hmk
    cases hmk
    exact absurd rfl hne
  | cons c0 crest =>
    obtain ⟨samples, hinit, hnd, hranges⟩ :=
      make_distribution_decomp _ _ _ _ (by simp) hmk
    obtain ⟨hmap, _⟩ := initialSamples_spec _ _ _ hinit
    have hcsum : ((c0 :: crest).map fun c => c.burn_fee).sum
        ≤ (c0 :: crest).length * (2 ^ 64 - 1) := by
      have h5 := List.sum_le_card_nsmul ((c0 :: crest).map fun c => c.burn_fee)
        (2 ^ 64 - 1) ?_
      · simpa [smul_eq_mul] using h5
      · intro x hx
        obtain ⟨c, hcm, rfl⟩ := List.mem_map.mp hx
        have := hc c hcm
        omega
    have husum := sumFees_le user_burns hu
    have hsum_l : ((user_burns.foldl applyBurnStep samples).map fun s => s.burns).sum
        < U128MOD := by
      have h1 := applyFold_sum_le user_burns samples
      rw [hmap] at h1
      have h4 : U128MOD = 2 ^ 128 := rfl
      simp only [List.length_cons] at hcsum hcl
      omega
    cases hl1 : user_burns.foldl applyBurnStep samples with
    | nil =>
      rw [hl1] at hranges
      simp only [make_sortition_ranges] at hranges
      exact absurd (Option.some.inj hranges).symm hne
    | cons a rest =>
      rw [hl1] at hranges hsum_l
      cases rest with
      | nil =>
        simp only [make_sortition_ranges] at hranges
        have hd : dist = [{ a with range_start := 0, range_end := U256MAXV }] :=
          (Option.some.inj hranges).symm
        subst hd
        refine ⟨⟨_, rfl, rfl⟩, ?_, ⟨_, rfl, rfl⟩⟩
        intro i s s' h h'
        cases i with
        | zero => simp at h'
        | succ j => simp at h
      | cons b rest2 =>
        unfold make_sortition_ranges at hranges
        cases hg : get_total_burns (a :: b :: rest2) with
        | none => simp only [hg] at hranges; exact Option.noConfusion hranges
        | some total =>
          simp only [hg] at hranges
          by_cases ht : total = 0
          · rw [if_pos ht] at hranges; exact Option.noConfusion hranges
          · rw [if_neg ht] at hranges
            have hgt : totalBurnsU128 (a :: b :: rest2)
                = ((a :: b :: rest2).map fun s => s.burns).sum :=
              totalBurnsU128_eq _ hsum_l
            unfold get_total_burns at hg
            by_cases hle : U64MAX ≤ totalBurnsU128 (a :: b :: rest2)
            · rw [if_pos hle] at hg; exact Option.noConfusion hg
            · rw [if_neg hle] at hg
              have htots : total = ((a :: b :: rest2).map fun s => s.burns).sum := by
                rw [← Option.some.inj hg, hgt]
              have hlt128 : total < U128MOD := by
                have h4 : U64MAX < U128MOD := by
                  unfold U64MAX U128MOD
                  have := Nat.pow_lt_pow_right (show 1 < 2 by norm_num)
                    (show 64 < 128 by norm_num)
                  omega
                rw [← hgt] at htots
                omega
              obtain ⟨out, hout, holen, hoget⟩ :=
                sortRangesGo_ranges total (Nat.pos_of_ne_zero ht) hlt128
                  (a :: b :: rest2) 0 0 (by omega)
              rw [hout] at hranges
              have hdo : dist = out := Option.some.inj hranges.symm
              subst hdo
              have h0lt : 0 < dist.length := by rw [holen]; simp
              refine ⟨?_, ?_, ?_⟩
              · have h00 := List.getElem?_eq_getElem h0lt
                obtain ⟨_, hst⟩ := hoget 0 _ h00
                exact ⟨_, h00, by rw [hst]; simp⟩
              · intro i s s' h h'
                obtain ⟨he, _⟩ := hoget i s h
                obtain ⟨_, hst⟩ := hoget (i + 1) s' h'
                rw [hst, if_neg (Nat.succ_ne_zero i), he]
              · have hlast := List.getElem?_eq_getElem
                  (show dist.length - 1 < dist.length by omega)
                obtain ⟨he, _⟩ := hoget (dist.length - 1) _ hlast
                refine ⟨_, hlast, ?_⟩
                rw [he]
                have hlen2 : (dist.length - 1) + 1
                    = ((a :: b :: rest2).map fun s => s.burns).length := by
                  rw [holen]
                  simp
                rw [hlen2, List.take_length, Nat.zero_add, ← htots]
                exact Nat.mul_div_cancel U256MAXV (Nat.pos_of_ne_zero ht)

theorem make_distribution_ranges_tile_witness :
    make_distribution [⟨[1], 10, 1, 100, 110, 5⟩] [⟨11, 100, 1⟩] []
      = some [⟨100, 0, U256MAXV, ⟨[1], 10, 1, 100, 110, 5⟩, ⟨11, 100, 1⟩, []⟩] ∧
    (∃ s0, ([⟨100, 0, U256MAXV, ⟨[1], 10, 1, 100, 110, 5⟩, ⟨11, 100, 1⟩, []⟩] :
        List BurnSamplePoint)[0]? = some s0 ∧ s0.range_start = 0) ∧
    (∃ sl, ([⟨100, 0, U256MAXV, ⟨[1], 10, 1, 100, 110, 5⟩, ⟨11, 100, 1⟩, []⟩] :
        List BurnSamplePoint)[([⟨100, 0, U256MAXV, ⟨[1], 10, 1, 100, 110, 5⟩,
          ⟨11, 100, 1⟩, []⟩] : List BurnSamplePoint).length - 1]? = some sl ∧
      sl.range_end = U256MAXV) :=
  ⟨by decide,
   (make_distribution_ranges_tile [⟨[1], 10, 1, 100, 110, 5⟩] [⟨11, 100, 1⟩] []
      [⟨100, 0, U256MAXV, ⟨[1], 10, 1, 100, 110, 5⟩, ⟨11, 100, 1⟩, []⟩]
      (by decide) (by decide) (by decide) (by decide) (by decide) (by decide)).1,
   (make_distribution_ranges_tile [⟨[1], 10, 1, 100, 110, 5⟩] [⟨11, 100, 1⟩] []
      [⟨100, 0, U256MAXV, ⟨[1], 10, 1, 100, 110, 5⟩, ⟨11, 100, 1⟩, []⟩]
      (by decide) (by decide) (by decide) (by decide) (by decide) (by decide)).2.2⟩

/-! ## Round-trip lemmas for spending-condition serialization -/

theorem readByte_cons (b : Nat) (r : List Nat) : readByte (b :: r) = some (b, r) := rfl

theorem readBytes_append (l rest : List Nat) :
    readBytes l.length (l ++ rest) = some (l, rest) := by
  unfold readBytes
  rw [if_pos (by simp)]
  rw [List.take_left, List.drop_left]

theorem readBytes_exact (k : Nat) (l : List Nat) (h : l.length = k) (rest : List Nat) :
    readBytes k (l ++ rest) = some (l, rest) := by
  subst h
  exact readBytes_append l rest

theorem readBENat_append (w n : Nat) (h : n < 256 ^ w) (rest : List Nat) :
    readBENat w (natToBEBytes w n ++ rest) = some (n, rest) := by
  unfold readBENat
  rw [readBytes_exact w (natToBEBytes w n) (length_natToBEBytes w n) rest]
  simp [beBytesToNat_natToBEBytes w n h]

theorem authField_roundtrip (f : TransactionAuthField) (hwf : wfAuthField f)
    (rest : List Nat) :
    TransactionAuthField.consensus_deserialize
      (TransactionAuthField.consensus_serialize f ++ rest) = some (f, rest) := by
  cases f with
  | PublicKey pubk =>
    obtain ⟨kd, comp⟩ := pubk
    simp only [wfAuthField] at hwf
    cases comp with
    | true =>
      simp [TransactionAuthField.consensus_serialize,
        TransactionAuthField.consensus_deserialize, TransactionAuthFieldID.toU8,
        readByte_cons, readBytes_exact 33 kd hwf rest]
    | false =>
      simp [TransactionAuthField.consensus_serialize,
        TransactionAuthField.consensus_deserialize, TransactionAuthFieldID.toU8,
        readByte_cons, readBytes_exact 33 kd hwf rest]
  | Signature key_encoding sig =>
    simp only [wfAuthField] at hwf
    cases key_encoding with
    | Compressed =>
      simp [TransactionAuthField.consensus_serialize,
        TransactionAuthField.consensus_deserialize, TransactionAuthFieldID.toU8,
        readByte_cons, readBytes_exact 65 sig hwf rest]
    | Uncompressed =>
      simp [TransactionAuthField.consensus_serialize,
        TransactionAuthField.consensus_deserialize, TransactionAuthFieldID.toU8,
        readByte_cons, readBytes_exact 65 sig hwf rest]

theorem parseItems_append (fs : List TransactionAuthField)
    (hwf : ∀ f ∈ fs, wfAuthField f) (rest : List Nat) :
    parseItems TransactionAuthField.consensus_deserialize fs.length
      ((fs.map TransactionAuthField.consensus_serialize).flatten ++ rest)
      = some (fs, rest) := by
  induction fs with
  | nil => rfl
  | cons f fs' ih =>
    simp only [List.map_cons, List.flatten_cons, List.length_cons, List.append_assoc]
    unfold parseItems
    simp only [authField_roundtrip f (hwf f (List.mem_cons_self _ _)),
      ih fun g hg => hwf g (List.mem_cons_of_mem _ hg)]

theorem countSigsCheckedGo_spec (fs : List TransactionAuthField) :
    ∀ n : Nat, n + countSigs fs ≤ 65535 →
    countSigsCheckedGo n fs = some (n + countSigs fs) := by
  induction fs with
  | nil => intro n h; simp [countSigsCheckedGo, countSigs]
  | cons f fs' ih =>
    intro n h
    cases f with
    | PublicKey pubk =>
      unfold countSigsCheckedGo
      have hcount : countSigs (TransactionAuthField.PublicKey pubk :: fs')
          = countSigs fs' := by
        unfold countSigs
        rw [List.filter_cons, if_neg (by norm_num)]
      rw [hcount] at h ⊢
      exact ih n h
    | Signature enc sig =>
      unfold countSigsCheckedGo
      have hcount : countSigs (TransactionAuthField.Signature enc sig :: fs')
          = countSigs fs' + 1 := by
        unfold countSigs
        rw [List.filter_cons, if_pos (by norm_num)]
        simp
      rw [hcount] at h
      rw [if_pos (by omega), ih (n + 1) (by omega), hcount]
      congr 1
      omega

theorem fromU8_toU8_multisig (m : MultisigHashMode) :
    MultisigHashMode.fromU8 m.toU8 = some m := by
  cases m <;> rfl

theorem fromU8_toU8_singlesig (m : SinglesigHashMode) :
    SinglesigHashMode.fromU8 m.toU8 = some m := by
  cases m <;> rfl

theorem fromU8_toU8_encoding (e : TransactionPublicKeyEncoding) :
    TransactionPublicKeyEncoding.fromU8 e.toU8 = some e := by
  cases e <;> rfl

theorem singlesig_roundtrip (c : SinglesigSpendingCondition) (hwf : c.wf) (hv : c.valid)
    (rest : List Nat) :
    SinglesigSpendingCondition.consensus_deserialize (c.consensus_serialize ++ rest)
      = some (c, rest) := by
  obtain ⟨hs, hn, hf, hsig⟩ := hwf
  unfold SinglesigSpendingCondition.consensus_serialize
    SinglesigSpendingCondition.consensus_deserialize
  simp only [List.cons_append, List.append_assoc, readByte_cons, Option.bind_eq_bind,
    Option.some_bind, fromU8_toU8_singlesig, readBENat_append 20 c.signer hs,
    readBENat_append 8 c.nonce hn, readBENat_append 8 c.fee_rate hf,
    fromU8_toU8_encoding, readBytes_exact 65 c.signature hsig]
  rw [if_neg (fun hcontra => hcontra.2 (hv hcontra.1))]

theorem multisig_roundtrip (c : MultisigSpendingCondition) (hwf : c.wf) (hv : c.valid)
    (rest : List Nat) :
    MultisigSpendingCondition.consensus_deserialize (c.consensus_serialize ++ rest)
      = some (c, rest) := by
  obtain ⟨hs, hn, hf, hl, hr, hfields⟩ := hwf
  obtain ⟨hcount, hunc⟩ := hv
  have hchk : countSigsChecked c.fields = some (countSigs c.fields) := by
    unfold countSigsChecked
    have := countSigsCheckedGo_spec c.fields 0 (by omega)
    simpa using this
  unfold MultisigSpendingCondition.consensus_serialize
    MultisigSpendingCondition.consensus_deserialize
  simp only [List.cons_append, List.append_assoc, readByte_cons, Option.bind_eq_bind,
    Option.some_bind, fromU8_toU8_multisig, readBENat_append 20 c.signer hs,
    readBENat_append 8 c.nonce hn, readBENat_append 8 c.fee_rate hf,
    readBENat_append 4 c.fields.length hl, parseItems_append c.fields hfields,
    readBENat_append 2 c.signatures_required hr, hchk]
  rw [if_neg (by simp [hcount]), if_neg]
  intro hcontra
  rw [hunc hcontra.2] at hcontra
  exact Bool.false_ne_true hcontra.1

theorem cond_roundtrip (c : TransactionSpendingCondition) (hwf : c.wf) (hv : c.valid)
    (rest : List Nat) :
    TransactionSpendingCondition.consensus_deserialize (c.consensus_serialize ++ rest)
      = some (c, rest) := by
  cases c with
  | Singlesig d =>
    have hser2 : d.hash_mode.toU8
          :: ((natToBEBytes 20 d.signer ++ natToBEBytes 8 d.nonce
              ++ natToBEBytes 8 d.fee_rate ++ d.key_encoding.toU8 :: d.signature) ++ rest)
        = SinglesigSpendingCondition.consensus_serialize d ++ rest := by
      unfold SinglesigSpendingCondition.consensus_serialize
      rw [List.cons_append]
    have hser : TransactionSpendingCondition.consensus_serialize
          (TransactionSpendingCondition.Singlesig d) ++ rest
        = d.hash_mode.toU8
          :: ((natToBEBytes 20 d.signer ++ natToBEBytes 8 d.nonce
              ++ natToBEBytes 8 d.fee_rate ++ d.key_encoding.toU8 :: d.signature)
            ++ rest) := by
      unfold TransactionSpendingCondition.consensus_serialize
      rw [← hser2]
    unfold TransactionSpendingCondition.consensus_deserialize
    simp only [hser]
    rw [if_pos (by cases d.hash_mode <;> simp [SinglesigHashMode.toU8]), hser2,
      singlesig_roundtrip d hwf hv rest]
    rfl
  | Multisig d =>
    have hser2 : d.hash_mode.toU8
          :: ((natToBEBytes 20 d.signer ++ natToBEBytes 8 d.nonce
              ++ natToBEBytes 8 d.fee_rate ++ natToBEBytes 4 d.fields.length
              ++ (d.fields.map TransactionAuthField.consensus_serialize).flatten
              ++ natToBEBytes 2 d.signatures_required) ++ rest)
        = MultisigSpendingCondition.consensus_serialize d ++ rest := by
      unfold MultisigSpendingCondition.consensus_serialize
      rw [List.cons_append]
    have hser : TransactionSpendingCondition.consensus_serialize
          (TransactionSpendingCondition.Multisig d) ++ rest
        = d.hash_mode.toU8
          :: ((natToBEBytes 20 d.signer ++ natToBEBytes 8 d.nonce
              ++ natToBEBytes 8 d.fee_rate ++ natToBEBytes 4 d.fields.length
              ++ (d.fields.map TransactionAuthField.consensus_serialize).flatten
              ++ natToBEBytes 2 d.signatures_required) ++ rest) := by
      unfold TransactionSpendingCondition.consensus_serialize
      rw [← hser2]
    unfold TransactionSpendingCondition.consensus_deserialize
    simp only [hser]
    rw [if_neg (by cases d.hash_mode <;>
          simp [MultisigHashMode.toU8, SinglesigHashMode.toU8]),
      if_pos (by cases d.hash_mode <;> simp [MultisigHashMode.toU8]), hser2,
      multisig_roundtrip d hwf hv rest]
    rfl

theorem auth_roundtrip (a : TransactionAuth) (hwf : a.wf) (hv : a.valid) :
    TransactionAuth.consensus_deserialize a.consensus_serialize = some (a, []) := by
  cases a with
  | Standard origin =>
    unfold TransactionAuth.consensus_serialize TransactionAuth.consensus_deserialize
    simp only [readByte_cons]
    rw [if_pos trivial,
      show origin.consensus_serialize = origin.consensus_serialize ++ [] by simp,
      cond_roundtrip origin hwf hv []]
    rfl
  | Sponsored origin sponsor =>
    unfold TransactionAuth.consensus_serialize TransactionAuth.consensus_deserialize
    simp only [readByte_cons]
    rw [if_pos trivial]
    simp only [cond_roundtrip origin hwf.1 hv.1 sponsor.consensus_serialize]
    rw [show sponsor.consensus_serialize = sponsor.consensus_serialize ++ [] by simp,
      cond_roundtrip sponsor hwf.2 hv.2 []]
    rfl

/-- C5 (amended): for every spending condition that is well-formed and
satisfies the data-model invariants (exactly `signatures_required` signature
fields in a multisig; no uncompressed fields under `P2WSH`; compressed key
encoding under `P2WPKH`), deserialization undoes serialization; likewise for
every valid transaction auth (standard or sponsored). -/
theorem spending_condition_roundtrip :
    (∀ c : TransactionSpendingCondition, c.wf → c.valid →
      TransactionSpendingCondition.consensus_deserialize c.consensus_serialize
        = some (c, [])) ∧
    (∀ a : TransactionAuth, a.wf → a.valid →
      TransactionAuth.consensus_deserialize a.consensus_serialize = some (a, [])) := by
  constructor
  · intro c hwf hv
    have := cond_roundtrip c hwf hv []
    rwa [List.append_nil] at this
  · intro a hwf hv
    exact auth_roundtrip a hwf hv

/-- C5 counterexample: a multisig condition with `signatures_required = 1` and
no fields at all serializes fine, but deserialization rejects it (signature
count mismatch), so the round trip fails for this spending condition. -/
theorem spending_condition_roundtrip_counterexample :
    (TransactionSpendingCondition.Multisig
      ⟨MultisigHashMode.P2SH, 0, 0, 0, [], 1⟩).wf ∧
    TransactionSpendingCondition.consensus_deserialize
      ((TransactionSpendingCondition.Multisig
        ⟨MultisigHashMode.P2SH, 0, 0, 0, [], 1⟩).consensus_serialize) = none := by
  constructor
  · refine ⟨by norm_num, by norm_num, by norm_num, by norm_num, by norm_num, ?_⟩
    intro f hf
    simp at hf
  · decide

theorem spending_condition_roundtrip_witness :
    TransactionSpendingCondition.consensus_deserialize
      ((TransactionSpendingCondition.Singlesig
        ⟨SinglesigHashMode.P2PKH, 3, 4, 5, TransactionPublicKeyEncoding.Compressed,
          List.replicate 65 7⟩).consensus_serialize)
      = some (TransactionSpendingCondition.Singlesig
          ⟨SinglesigHashMode.P2PKH, 3, 4, 5, TransactionPublicKeyEncoding.Compressed,
            List.replicate 65 7⟩, []) ∧
    TransactionAuth.consensus_deserialize
      ((TransactionAuth.Standard (TransactionSpendingCondition.Singlesig
        ⟨SinglesigHashMode.P2PKH, 3, 4, 5, TransactionPublicKeyEncoding.Compressed,
          List.replicate 65 7⟩)).consensus_serialize)
      = some (TransactionAuth.Standard (TransactionSpendingCondition.Singlesig
          ⟨SinglesigHashMode.P2PKH, 3, 4, 5, TransactionPublicKeyEncoding.Compressed,
            List.replicate 65 7⟩), []) :=
  ⟨spending_condition_roundtrip.1 _
      (by exact ⟨by norm_num, by norm_num, by norm_num, by decide⟩)
      (by intro h; cases h),
   spending_condition_roundtrip.2 _
      (by exact ⟨by norm_num, by norm_num, by norm_num, by decide⟩)
      (by intro h; cases h)⟩

end StacksSpec
